import Mathlib

/-!
Verification development for the emigo repository (Python sources under
`src/`).  Python strings are embedded as `List Char`, Python floats as `ℚ`,
dicts as association lists, and the effect of each side-effecting call is
made explicit in the return type of the embedded function.  Each section
names the source file and function it embeds.
-/

namespace Emigo

/-! ## String utilities shared by several source files -/

/-- Whitespace characters recognised by Python's `str.strip` (ASCII range). -/
def isPySpace (c : Char) : Bool :=
  c = ' ' ∨ c = '\t' ∨ c = '\n' ∨ c = '\r' ∨ c = Char.ofNat 11 ∨ c = Char.ofNat 12

/-- Python's `str.strip()`: drop leading and trailing whitespace. -/
def pyStrip (s : List Char) : List Char :=
  ((s.dropWhile isPySpace).reverse.dropWhile isPySpace).reverse

/-- Boolean prefix test on lists (Python's `str.startswith`). -/
def isPre [DecidableEq α] : List α → List α → Bool
  | [], _ => true
  | _ :: _, [] => false
  | a :: as, b :: bs => a = b && isPre as bs

/-- Index of the first occurrence of `pat` in `s` (Python's `str.find` /
the start of the leftmost regex match of a literal). -/
def findSub [DecidableEq α] (pat : List α) : List α → Option Nat
  | [] => if pat = [] then some 0 else none
  | b :: bs => if isPre pat (b :: bs) then some 0 else (findSub pat bs).map (· + 1)

/-- Association-list lookup (Python dict read). -/
def lookupKey [DecidableEq α] (k : α) : List (α × β) → Option β
  | [] => none
  | (a, b) :: t => if a = k then some b else lookupKey k t

/-- `s.splitlines(keepends=True)` restricted to `\n` line endings, the only
endings the repository's data uses: each line keeps its trailing newline;
a final fragment without a newline is kept as-is. -/
def linesGo (cur : List Char) : List Char → List (List Char)
  | [] => if cur = [] then [] else [cur.reverse]
  | c :: rest =>
    if c = '\n' then (cur.reverse ++ ['\n']) :: linesGo [] rest
    else linesGo (c :: cur) rest

/-- See `linesGo`: the split itself. -/
def splitLinesKeepEnds (s : List Char) : List (List Char) :=
  linesGo [] s

/-- Insertion into a `≤`-sorted list of naturals. -/
def insertNat (n : Nat) : List Nat → List Nat
  | [] => [n]
  | m :: ms => if n ≤ m then n :: m :: ms else m :: insertNat n ms

/-- Insertion sort on naturals (Python's `sorted` on dict keys). -/
def sortNat : List Nat → List Nat
  | [] => []
  | n :: ns => insertNat n (sortNat ns)

/-- Code-point lexicographic `≤` on strings (Python's string order). -/
def lexLe : List Char → List Char → Bool
  | [], _ => true
  | _ :: _, [] => false
  | a :: as, b :: bs =>
    if a.val < b.val then true
    else if b.val < a.val then false
    else lexLe as bs

/-- Insertion into a `lexLe`-sorted list of strings. -/
def insertStr (s : List Char) : List (List Char) → List (List Char)
  | [] => [s]
  | t :: ts => if lexLe s t then s :: t :: ts else t :: insertStr s ts

/-- Insertion sort on strings (Python's `sorted` on a list of strings). -/
def sortStrs : List (List Char) → List (List Char)
  | [] => []
  | s :: ss => insertStr s (sortStrs ss)

/-! ## difflib.SequenceMatcher (used by `src/tools.py`)

`difflib.SequenceMatcher(None, a, b).ratio()` with no junk; the autojunk
heuristic only fires for `len(b) ≥ 200` and is outside the model (the main
dynamic-programming loop below is exact for shorter second arguments). -/

/-- Ascending positions of character `c` in `b` (difflib's `b2j[c]`). -/
def posIn (b : List Char) (c : Char) : List Nat :=
  (List.range b.length).filter (fun j => b.getD j ' ' = c)

/-- State threaded through `find_longest_match`: the best block found so
far, as difflib records it (`besti`, `bestj`, `bestsize`). -/
structure Best where
  besti : Nat
  bestj : Nat
  bestsize : Nat
deriving DecidableEq, Repr

/-- One row `i` of difflib's `find_longest_match` loop: fold the positions
of `a[i]` in `b` (restricted to the window `[blo, bhi)`), building the new
`j2len` map and improving the best block on strict increase only. -/
def flmRow (i : Nat) (js : List Nat) (blo bhi : Nat)
    (j2len : List (Nat × Nat)) (best : Best) : List (Nat × Nat) × Best :=
  (js.filter (fun j => blo ≤ j ∧ j < bhi)).foldl
    (fun (st : List (Nat × Nat) × Best) j =>
      let km1 := if j = 0 then 0 else (lookupKey (j - 1) j2len).getD 0
      let k := km1 + 1
      let nj := (j, k) :: st.1
      let bst := if st.2.bestsize < k then ⟨i + 1 - k, j + 1 - k, k⟩ else st.2
      (nj, bst))
    (([] : List (Nat × Nat)), best)

/-- difflib's `find_longest_match(alo, ahi, blo, bhi)` (no junk, no
autojunk): the earliest longest matching block in the window. -/
def flm (a b : List Char) (alo ahi blo bhi : Nat) : Best :=
  ((List.range' alo (ahi - alo)).foldl
    (fun (st : List (Nat × Nat) × Best) i =>
      flmRow i (posIn b (a.getD i ' ')) blo bhi st.1 st.2)
    (([] : List (Nat × Nat)), ⟨alo, blo, 0⟩)).2

/-- Total size of the matching blocks `get_matching_blocks` finds in the
window, by difflib's recursive divide on the longest match (fuel bounds the
recursion depth; any fuel above `ahi + bhi` is enough). -/
def blocksSum (a b : List Char) : Nat → Nat → Nat → Nat → Nat → Nat
  | 0, _, _, _, _ => 0
  | fuel + 1, alo, ahi, blo, bhi =>
    let bst := flm a b alo ahi blo bhi
    if bst.bestsize = 0 then 0
    else
      blocksSum a b fuel alo bst.besti blo bst.bestj + bst.bestsize +
        blocksSum a b fuel (bst.besti + bst.bestsize) ahi (bst.bestj + bst.bestsize) bhi

/-- `M`: the total size of matched blocks over the whole of `a` and `b`. -/
def smM (a b : List Char) : Nat :=
  blocksSum a b (a.length + b.length + 1) 0 a.length 0 b.length

/-- `SequenceMatcher.ratio()`: `2.0 * M / (len(a) + len(b))`, and `1.0`
when both are empty (difflib's `_calculate_ratio`). -/
def smScore (a b : List Char) : ℚ :=
  if a.length + b.length = 0 then 1
  else mkRat (2 * smM a b) (a.length + b.length)

/-! ## src/tools.py `_compare_stripped_lines` -/

/-- `_compare_stripped_lines` of `replace_in_file` (src/tools.py): strip
both lines; 1.0 if both strip to empty, 0.0 if exactly one does, else the
`SequenceMatcher` ratio of the stripped lines. -/
def compare_stripped_lines (line1 line2 : List Char) : ℚ :=
  let stripped1 := pyStrip line1
  let stripped2 := pyStrip line2
  if stripped1 = [] ∧ stripped2 = [] then 1
  else if stripped1 = [] ∨ stripped2 = [] then 0
  else smScore stripped1 stripped2

/-- Length of a longest common subsequence (fuel-free via the sum of the
lengths as fuel). -/
def lcsLenF : Nat → List Char → List Char → Nat
  | 0, _, _ => 0
  | _ + 1, [], _ => 0
  | _ + 1, _, [] => 0
  | fuel + 1, a :: as, b :: bs =>
    if a = b then lcsLenF fuel as bs + 1
    else max (lcsLenF fuel (a :: as) bs) (lcsLenF fuel as (b :: bs))

/-- Longest-common-subsequence length of two strings. -/
def lcsLen (a b : List Char) : Nat := lcsLenF (a.length + b.length) a b

/-- The longest-common-subsequence ratio `2 * lcs / (len(a) + len(b))`. -/
def lcsScore (a b : List Char) : ℚ :=
  if a.length + b.length = 0 then 1
  else mkRat (2 * lcsLen a b) (a.length + b.length)

/-- Modelled from the spec: the per-line similarity as the spec's words
describe it — whitespace-stripped lines compared by longest-common-
subsequence ratio, 1.0 when both strip to empty, 0.0 when exactly one
does. Stated for comparison with `compare_stripped_lines`. -/
def sim_spec (line1 line2 : List Char) : ℚ :=
  let stripped1 := pyStrip line1
  let stripped2 := pyStrip line2
  if stripped1 = [] ∧ stripped2 = [] then 1
  else if stripped1 = [] ∨ stripped2 = [] then 0
  else lcsScore stripped1 stripped2

/-! ## src/tools.py `_parse_search_replace_blocks` -/

/-- The literal `"<<<<<<< SEARCH\n"` marker. -/
def searchMarker : List Char := "<<<<<<< SEARCH\n".toList

/-- The literal `"\n=======\n"` divider. -/
def dividerMarker : List Char := "\n=======\n".toList

/-- The literal `"\n>>>>>>> REPLACE"` marker. -/
def replaceMarker : List Char := "\n>>>>>>> REPLACE".toList

/-- All non-overlapping leftmost matches of the block pattern
`SEARCH-marker (.*?) divider (.*?) REPLACE-marker` (with `re.DOTALL`):
for a lazy literal pattern, `findall` takes the first marker occurrence,
then the first divider after it, then the first REPLACE marker after that,
and resumes scanning after the match.  Fuel bounds the recursion; any fuel
above the input length is enough. -/
def findAllBlocks : Nat → List Char → List (List Char × List Char)
  | 0, _ => []
  | fuel + 1, s =>
    match findSub searchMarker s with
    | none => []
    | some i =>
      let afterSearch := s.drop (i + searchMarker.length)
      match findSub dividerMarker afterSearch with
      | none => []
      | some d =>
        let searchText := afterSearch.take d
        let afterDivider := afterSearch.drop (d + dividerMarker.length)
        match findSub replaceMarker afterDivider with
        | none => []
        | some r =>
          let replaceText := afterDivider.take r
          (searchText, replaceText) ::
            findAllBlocks fuel (afterDivider.drop (r + replaceMarker.length))

/-- A block's text may not itself contain any of the three markers. -/
def blockContaminated (b : List Char × List Char) : Bool :=
  (findSub searchMarker b.1).isSome ∨ (findSub dividerMarker b.1).isSome ∨
    (findSub replaceMarker b.1).isSome ∨ (findSub searchMarker b.2).isSome ∨
    (findSub dividerMarker b.2).isSome ∨ (findSub replaceMarker b.2).isSome

/-- `_parse_search_replace_blocks` (src/tools.py): all SEARCH/REPLACE
blocks of the diff, or an error message when none parse or a block's body
contains a marker. -/
def parse_search_replace_blocks (diff : List Char) :
    Except (List Char) (List (List Char × List Char)) :=
  let found := findAllBlocks (diff.length + 1) diff
  if found = [] then
    if (findSub "```".toList diff).isSome ∧ (findSub searchMarker diff).isNone then
      .error "Diff content seems to be a markdown code block, not a SEARCH/REPLACE block.".toList
    else
      .error "No valid SEARCH/REPLACE blocks found in the provided diff.".toList
  else if found.any blockContaminated then
    .error "Detected malformed or nested SEARCH/REPLACE markers within a block's content.".toList
  else
    .ok found

/-! ## src/tools.py `replace_in_file` -/

/-- The configurable similarity threshold of `replace_in_file` (`0.85`). -/
def similarity_threshold : ℚ := mkRat 85 100

/-- Does the search block starting at file line `s` match sequentially?
Mirrors the inner loop of `replace_in_file`: the candidate start must be
unused and every search line `k` must land on an in-range unused file line
with similarity at least the threshold. -/
def matchesAt (fileLines : List (List Char)) (used : List Nat)
    (searchLines : List (List Char)) (s : Nat) : Bool :=
  decide (s ∉ used) &&
    decide (similarity_threshold ≤
      compare_stripped_lines (searchLines.getD 0 []) (fileLines.getD s [])) &&
    (List.range' 1 (searchLines.length - 1)).all (fun k =>
      decide (s + k < fileLines.length) && decide ((s + k) ∉ used) &&
        decide (similarity_threshold ≤
          compare_stripped_lines (searchLines.getD k []) (fileLines.getD (s + k) [])))

/-- The first candidate start line that matches the block, as the
line-by-line scan of `replace_in_file` finds it. -/
def findMatchStart (fileLines : List (List Char)) (used : List Nat)
    (searchLines : List (List Char)) : Option Nat :=
  (List.range fileLines.length).find? (matchesAt fileLines used searchLines)

/-- A planned replacement as `replace_in_file` records it: 1-based start
line, 1-based exclusive end line (the Elisp end), replacement text. -/
abbrev PlanEntry := Nat × Nat × List Char

/-- State of the block loop of `replace_in_file`: the replacements to
apply, the per-block errors, and the file line indices already consumed
(`already_matched_file_line_indices`). -/
structure BlockState where
  plan : List PlanEntry
  errors : List (List Char)
  used : List Nat
deriving DecidableEq, Repr

/-- The per-block error for an empty or whitespace-only SEARCH block. -/
def emptySearchError (blockIndex : Nat) : List Char :=
  ("Block " ++ toString (blockIndex + 1) ++
    ": SEARCH block is empty or contains only whitespace.").toList

/-- The per-block error when no sequential match exists. -/
def noMatchError (blockIndex : Nat) (searchText : List Char) : List Char :=
  ("Block " ++ toString (blockIndex + 1) ++
    ": Could not find a sequential match for the SEARCH text.\nSEARCH block:\n```\n").toList
    ++ searchText ++ "```".toList

/-- One iteration of the block loop of `replace_in_file`. -/
def processBlock (fileLines : List (List Char)) (st : BlockState)
    (blockIndex : Nat) (block : List Char × List Char) : BlockState :=
  let searchLines := splitLinesKeepEnds block.1
  if searchLines = [] ∨ pyStrip block.1 = [] then
    { st with errors := st.errors ++ [emptySearchError blockIndex] }
  else
    match findMatchStart fileLines st.used searchLines with
    | some s =>
      { st with
          plan := st.plan ++ [(s + 1, s + 1 + searchLines.length, block.2)],
          used := st.used ++ List.range' s searchLines.length }
    | none =>
      { st with errors := st.errors ++ [noMatchError blockIndex block.1] }

/-- The block loop of `replace_in_file`, carrying the running block index. -/
def applyBlocksFrom (fileLines : List (List Char)) (st : BlockState)
    (blockIndex : Nat) : List (List Char × List Char) → BlockState
  | [] => st
  | b :: bs =>
    applyBlocksFrom fileLines (processBlock fileLines st blockIndex b) (blockIndex + 1) bs

/-- The block loop of `replace_in_file` from the empty state. -/
def applyBlocks (fileLines : List (List Char)) (blocks : List (List Char × List Char)) :
    BlockState :=
  applyBlocksFrom fileLines ⟨[], [], []⟩ 0 blocks

/-- Outcome of `replace_in_file` up to the editor call: either an error
string returned to the LLM (no editor call, no cache change), or the
replacement plan submitted to the editor's `replace-regions-sync` call. -/
inductive ReplaceOutcome
  | error (msg : List Char)
  | submit (plan : List PlanEntry)
deriving DecidableEq, Repr

/-- The aggregated error returned when any per-block error exists. -/
def aggregatedError (errors : List (List Char)) : List Char :=
  ("Failed to apply replacements due to " ++ toString errors.length ++
    " error(s):\n").toList ++
    (List.intercalate "\n\n".toList errors) ++
    "\nPlease use read_file to get the exact current content and try again with updated SEARCH blocks.".toList

/-- `replace_in_file` (src/tools.py) on the cached file content and the
diff string, up to the point where the plan is submitted to the editor:
guard against cached error content, parse all blocks, run the sequential
fuzzy matching loop, and either return an aggregated error or submit the
plan. -/
def replace_in_file (fileContent diff : List Char) : ReplaceOutcome :=
  if isPre "# Error".toList fileContent then
    .error "Cannot perform replacement. Cached content indicates a previous error.".toList
  else
    match parse_search_replace_blocks diff with
    | .error e => .error e
    | .ok parsedBlocks =>
      if parsedBlocks = [] then
        .error "No valid SEARCH/REPLACE blocks found in the diff.".toList
      else
        let fileLines := splitLinesKeepEnds fileContent
        let st := applyBlocks fileLines parsedBlocks
        if st.errors ≠ [] then .error (aggregatedError st.errors)
        else if st.plan = [] then
          .error "No replacements could be applied (all blocks failed matching or were empty).".toList
        else .submit st.plan

/-! ## POSIX path model for src/session.py

`os.path` on POSIX: paths are strings, `abspath` = `normpath` of the
join with the current directory, `relpath` compares segment lists,
`join` concatenates with `/`.  Segments are `List Char`; a path string
splits on `'/'`. -/

/-- Worker for `splitSlash`: `cur` is the reversed pending segment. -/
def slashGo (cur : List Char) : List Char → List (List Char)
  | [] => [cur.reverse]
  | c :: rest =>
    if c = '/' then cur.reverse :: slashGo [] rest
    else slashGo (c :: cur) rest

/-- Split a path string at every `'/'` (like `str.split('/')`). -/
def splitSlash : List Char → List (List Char) :=
  slashGo []

/-- Join segments with `'/'` (Python's `'/'.join`). -/
def joinSlash : List (List Char) → List Char
  | [] => []
  | [s] => s
  | s :: rest => s ++ '/' :: joinSlash rest

/-- One step of `posixpath.normpath` on an absolute path: skip empty and
`"."` segments, pop on `".."` (dropping it at the root). -/
def normStep (acc : List (List Char)) (seg : List Char) : List (List Char) :=
  if seg = [] ∨ seg = ".".toList then acc
  else if seg = "..".toList then acc.dropLast
  else acc ++ [seg]

/-- `posixpath.normpath` of an absolute path, as normalised segments. -/
def normAbs (segs : List (List Char)) : List (List Char) :=
  segs.foldl normStep []

/-- `os.path.isabs`: the string starts with `'/'`. -/
def isAbsPath (p : List Char) : Bool :=
  isPre ['/'] p

/-- `os.path.abspath(p)` given the normalised absolute current directory
`cwd` (as segments): normalise `p` itself when absolute, else `cwd/p`. -/
def absOf (cwd : List (List Char)) (p : List Char) : List (List Char) :=
  if isAbsPath p then normAbs (splitSlash p)
  else normAbs (cwd ++ splitSlash p)

/-- Render normalised absolute segments back to a path string. -/
def renderAbs (segs : List (List Char)) : List Char :=
  '/' :: joinSlash segs

/-- `posixpath.relpath(path, start)`: compare the two absolute segment
lists, go up with `".."` for the uncommon part of `start`, then down the
uncommon part of `path`; `"."` when nothing remains. -/
def commonLen : List (List Char) → List (List Char) → Nat
  | a :: as, b :: bs => if a = b then commonLen as bs + 1 else 0
  | _, _ => 0

/-- See `commonLen`: the relative path itself. -/
def relSegs (pathAbs startAbs : List (List Char)) : List (List Char) :=
  let i := commonLen pathAbs startAbs
  let rel := List.replicate (startAbs.length - i) "..".toList ++ pathAbs.drop i
  if rel = [] then [".".toList] else rel

/-- `os.path.abspath(os.path.join(session, rel))` for a non-absolute
`rel`: normalise the concatenated segments. -/
def absJoin (sessionSegs relSegments : List (List Char)) : List (List Char) :=
  normAbs (sessionSegs ++ relSegments)

/-! ## src/session.py chat-file context -/

/-- A filesystem as the session sees it: the set of existing regular
files, each as normalised absolute segments. -/
abbrev FileSys := List (List (List Char))

/-- `os.path.isfile` on the abstract filesystem. -/
def isFileFS (fs : FileSys) (abs : List (List Char)) : Bool :=
  decide (abs ∈ fs)

/-- `os.path.relpath(filename, session_path)` as `add_file_to_context`
computes it, as segments. -/
def addRel (cwd : List (List Char)) (sessionPath filename : List Char) :
    List (List Char) :=
  relSegs (absOf cwd filename) (absOf cwd sessionPath)

/-- `os.path.abspath(os.path.join(session_path, rel_filename))` as
`add_file_to_context` computes it. -/
def addAbs (cwd : List (List Char)) (sessionPath filename : List Char) :
    List (List Char) :=
  absJoin (splitSlash sessionPath) (addRel cwd sessionPath filename)

/-- `add_file_to_context` (src/session.py): make the filename relative to
the session path, re-resolve it, check it is an existing file whose
absolute path string starts with the session path string, and append it to
`chat_files` unless already present.  Returns the updated list and the
success flag. -/
def add_file_to_context (fs : FileSys) (cwd : List (List Char))
    (sessionPath : List Char) (chatFiles : List (List Char))
    (filename : List Char) : List (List Char) × Bool :=
  let relFilename := addRel cwd sessionPath filename
  let absPath := addAbs cwd sessionPath filename
  if ¬ isFileFS fs absPath then (chatFiles, false)
  else if ¬ isPre sessionPath (renderAbs absPath) then (chatFiles, false)
  else
    let relStr := joinSlash relFilename
    if relStr ∈ chatFiles then (chatFiles, false)
    else (chatFiles ++ [relStr], true)

/-- `remove_file_from_context` (src/session.py): normalise an absolute
argument to a session-relative one, then remove its first occurrence. -/
def remove_file_from_context (cwd : List (List Char)) (sessionPath : List Char)
    (chatFiles : List (List Char)) (filename : List Char) :
    List (List Char) × Bool :=
  let relFilename :=
    if isAbsPath filename then joinSlash (addRel cwd sessionPath filename)
    else filename
  if relFilename ∈ chatFiles then (chatFiles.erase relFilename, true)
  else (chatFiles, false)

/-- One add-file or remove-file operation on a session. -/
inductive FileOp
  | add (filename : List Char)
  | remove (filename : List Char)

/-- Run a sequence of add/remove operations from a given `chat_files`. -/
def runFileOps (fs : FileSys) (cwd : List (List Char)) (sessionPath : List Char) :
    List (List Char) → List FileOp → List (List Char)
  | cf, [] => cf
  | cf, .add f :: ops =>
    runFileOps fs cwd sessionPath (add_file_to_context fs cwd sessionPath cf f).1 ops
  | cf, .remove f :: ops =>
    runFileOps fs cwd sessionPath (remove_file_from_context cwd sessionPath cf f).1 ops

/-- A path lies inside a directory when the directory path followed by a
separator is a string prefix of it (the genuine containment the spec's
"inside the session directory" means, as opposed to the raw `startswith`
the code performs). -/
def insideDir (dir : List Char) (abs : List Char) : Bool :=
  isPre (dir ++ ['/']) abs

/-- The invariant a chat-file entry `P` actually satisfies: re-resolving
`session/P` yields an existing regular file whose rendered absolute path
has the session path as a string prefix (the code's `startswith` check). -/
def goodChatFile (fs : FileSys) (sessionPath P : List Char) : Prop :=
  isFileFS fs (absJoin (splitSlash sessionPath) (splitSlash P)) = true ∧
  isPre sessionPath (renderAbs (absJoin (splitSlash sessionPath) (splitSlash P))) = true

/-- The filesystem of the C6 counterexample: one regular file
`/tmp/proj2/x`, a sibling of the session directory `/tmp/proj`. -/
def c6_fs : FileSys := [["tmp".toList, "proj2".toList, "x".toList]]

/-- The session path of the C6 counterexample. -/
def c6_session : List Char := "/tmp/proj".toList

/-! ## src/session.py file caches and `get_environment_details_string`

The caches are keyed by session-relative path; the filesystem is modelled
as a map from relative path to mtime and content. -/

/-- The session's mtime and content caches (`self.caches`). -/
structure Caches where
  mtimes : List (List Char × Nat)
  contents : List (List Char × List Char)
deriving DecidableEq, Repr

/-- Remove a key from an association list (Python `del d[k]`, a no-op when
the key is absent, matching the guarded deletes in the source). -/
def eraseKey [DecidableEq α] (k : α) : List (α × β) → List (α × β)
  | [] => []
  | (a, b) :: t => if a = k then eraseKey k t else (a, b) :: eraseKey k t

/-- Set a key in an association list (Python `d[k] = v`). -/
def setKey [DecidableEq α] (k : α) (v : β) (l : List (α × β)) : List (α × β) :=
  (k, v) :: eraseKey k l

/-- `_update_file_cache` (src/session.py): on a missing file drop both
entries; with provided content store it; otherwise re-read only when the
mtime changed.  Returns the caches and the success flag. -/
def update_file_cache (fsm : List Char → Option (Nat × List Char)) (c : Caches)
    (relPath : List Char) (content : Option (List Char)) : Caches × Bool :=
  match fsm relPath with
  | none => (⟨eraseKey relPath c.mtimes, eraseKey relPath c.contents⟩, false)
  | some (currentMtime, fileContent) =>
    match content with
    | some provided =>
      (⟨setKey relPath currentMtime c.mtimes, setKey relPath provided c.contents⟩, true)
    | none =>
      if lookupKey relPath c.mtimes = some currentMtime then (c, true)
      else
        (⟨setKey relPath currentMtime c.mtimes, setKey relPath fileContent c.contents⟩, true)

/-- The cache eviction inside `get_environment_details_string`: delete
every mtime key not in `chat_files`, and its content entry with it. -/
def evictStale (chatFiles : List (List Char)) (c : Caches) : Caches :=
  ⟨c.mtimes.filter (fun p => decide (p.1 ∈ chatFiles)),
   c.contents.filter (fun p => decide (p.1 ∈ chatFiles) ∨ (lookupKey p.1 c.mtimes).isNone)⟩

/-- The effect of `get_environment_details_string` (src/session.py) on the
session caches (the returned text itself is not modelled): nothing when
`chat_files` is empty, else evict entries for files no longer in context
and refresh each chat file in sorted order via `get_cached_content`. -/
def get_environment_details_caches (fsm : List Char → Option (Nat × List Char))
    (chatFiles : List (List Char)) (c : Caches) : Caches :=
  if chatFiles = [] then c
  else
    (sortStrs chatFiles).foldl
      (fun cc rel => (update_file_cache fsm cc rel none).1)
      (evictStale chatFiles c)

/-! ## src/agents.py `_truncate_history` and `_count_tokens` -/

/-- `self.max_history_tokens` (src/agents.py). -/
def max_history_tokens : Nat := 8000

/-- `self.min_history_messages` (src/agents.py). -/
def min_history_messages : Nat := 3

/-- `_count_tokens` (src/agents.py): 0 for empty text, the tokenizer's
count when one is available, else `max(1, len(text) // 4)`. -/
def count_tokens (tokenizer : Option (List Char → Nat)) (text : List Char) : Nat :=
  if text = [] then 0
  else
    match tokenizer with
    | some encode => encode text
    | none => max 1 (text.length / 4)

/-- The newest-to-oldest accumulation loop of `_truncate_history`:
`acc` already holds the first message (at its head) and the kept suffix;
stop only when the next message would push past the limit while at least
`min_history_messages` are kept, else insert it at position 1. -/
def truncGo (tokenizer : Option (List Char → Nat)) :
    List (List Char) → List (List Char) → Nat → List (List Char)
  | [], acc, _ => acc
  | msg :: older, acc, currentTokens =>
    let msgTokens := count_tokens tokenizer msg
    if max_history_tokens < currentTokens + msgTokens ∧
        min_history_messages ≤ acc.length then acc
    else
      truncGo tokenizer older
        (match acc with
         | [] => [msg]
         | first :: kept => first :: msg :: kept)
        (currentTokens + msgTokens)

/-- `_truncate_history` (src/agents.py) on the message contents: keep the
first message, then add the rest newest-first within the token budget. -/
def truncate_history (tokenizer : Option (List Char → Nat)) :
    List (List Char) → List (List Char)
  | [] => []
  | first :: rest =>
    truncGo tokenizer rest.reverse [first] (count_tokens tokenizer first)

/-! ## src/utils.py `_filter_environment_details` -/

/-- The literal opening tag. -/
def openTag : List Char := "<environment_details>".toList

/-- The literal closing tag. -/
def closeTag : List Char := "</environment_details>".toList

/-- The substitution loop of
`re.sub(r"<environment_details>.*?</environment_details>\s*", "\n", text, flags=re.DOTALL)`:
find the leftmost opening tag, the first closing tag after it, consume
trailing whitespace, emit `"\n"` and continue after the match.  Fuel above
the input length is enough. -/
def filterEnvAux : Nat → List Char → List Char
  | 0, s => s
  | fuel + 1, s =>
    match findSub openTag s with
    | none => s
    | some i =>
      match findSub closeTag (s.drop (i + openTag.length)) with
      | none => s
      | some d =>
        let matchEnd := i + openTag.length + d + closeTag.length
        let rest := (s.drop matchEnd).dropWhile isPySpace
        s.take i ++ '\n' :: filterEnvAux fuel rest

/-- `_filter_environment_details` (src/utils.py). -/
def filter_environment_details (text : List Char) : List Char :=
  filterEnvAux (text.length + 1) text

/-- The `stream` branch of `_process_worker_queue` (src/emigo.py): filter
the content unless the role is `"tool_json_args"`, and flush to the
frontend only when the filtered content is non-empty or the role is
`"tool_json"`.  `none` means nothing is forwarded. -/
def stream_forward (role content : List Char) : Option (List Char) :=
  let filteredContent :=
    if role ≠ "tool_json_args".toList then filter_environment_details content
    else content
  if filteredContent ≠ [] ∨ role = "tool_json".toList then some filteredContent
  else none

/-- `text` contains a complete `<environment_details>…</environment_details>`
block. -/
def ContainsBlock (text : List Char) : Prop :=
  ∃ a b c, text = a ++ openTag ++ b ++ closeTag ++ c

/-! ## src/llm_worker.py `handle_interaction_request`

The streaming loop, the end-of-stream argument parsing and the turn loop,
for error-free streams.  A provider delta's tool-call chunk carries an
optional stream index, id, function name and argument text; text-content
deltas do not interact with the tool-call channel and are not modelled.
JSON values are abstract: the worker only inspects whether a parse result
is an object, so the JSON parser is a parameter. -/

/-- One tool-call chunk of the LLM stream (`delta.tool_calls` entry). -/
structure ToolChunk where
  index : Option Nat
  id : Option (List Char)
  fname : Option (List Char)
  args : Option (List Char)

/-- An accumulated tool-call fragment (`tool_call_fragments[index]`). -/
structure Frag where
  fid : List Char
  ffname : List Char
  fargs : List Char
deriving DecidableEq, Repr

/-- A `stream` message the worker emits (role, tool id, content, and the
tool name when present). -/
structure Msg where
  role : List Char
  toolId : List Char
  content : List Char
  toolName : Option (List Char)
deriving DecidableEq, Repr

/-- The fragment dictionary, keyed by stream index. -/
abbrev Frags := List (Nat × Frag)

/-- Processing one tool-call chunk (src/llm_worker.py, the
`delta.tool_calls` loop): initialise the fragment and emit the
`tool_json` start marker on first sight of an index with truthy id and
function name, then append any truthy argument text and emit it as
`tool_json_args`. -/
def processChunk (st : Frags × List Msg) (ch : ToolChunk) : Frags × List Msg :=
  match ch.index with
  | none => st
  | some index =>
    match lookupKey index st.1 with
    | some f =>
      match ch.args with
      | some a =>
        if a ≠ [] then
          (setKey index { f with fargs := f.fargs ++ a } st.1,
           st.2 ++ [⟨"tool_json_args".toList, f.fid, a, none⟩])
        else st
      | none => st
    | none =>
      match ch.id, ch.fname with
      | some toolId, some funcName =>
        if toolId ≠ [] ∧ funcName ≠ [] then
          let started : Frags := st.1 ++ [(index, ⟨toolId, funcName, []⟩)]
          let msgs := st.2 ++ [⟨"tool_json".toList, toolId, [], some funcName⟩]
          match ch.args with
          | some a =>
            if a ≠ [] then
              (setKey index ⟨toolId, funcName, a⟩ started,
               msgs ++ [⟨"tool_json_args".toList, toolId, a, none⟩])
            else (started, msgs)
          | none => (started, msgs)
        else st
      | _, _ => st

/-- Processing a whole turn's stream of tool-call chunks. -/
def processStream (chunks : List ToolChunk) : Frags × List Msg :=
  chunks.foldl processChunk ([], [])

/-- Abstract JSON values; the worker only distinguishes objects. -/
inductive Json
  | obj (fields : List (List Char × Json))
  | arr (items : List Json)
  | str (s : List Char)
  | num (n : Int)
  | bool (b : Bool)
  | null

/-- Is a parse result a JSON object (Python `isinstance(parameters, dict)`)? -/
def Json.isObj : Json → Bool
  | .obj _ => true
  | _ => false

/-- The keys of the fragment dictionary in ascending order
(`sorted(tool_call_fragments.keys())`). -/
def sortedKeys (fs : Frags) : List Nat :=
  sortNat (fs.map Prod.fst)

/-- The end-of-stream parsing of one fragment (src/llm_worker.py): skip a
fragment without truthy id and name; strip the accumulated arguments;
empty text parses to the empty object; otherwise parse as JSON and keep
only object results.  `none` is a skipped call that is never sent as a
`tool_request`. -/
def parseOneFragment (parse : List Char → Option Json) (f : Frag) :
    Option (List Char × List Char × Json) :=
  if f.fid = [] ∨ f.ffname = [] then none
  else
    let strippedArgs := pyStrip f.fargs
    if strippedArgs = [] then some (f.fid, f.ffname, Json.obj [])
    else
      match parse strippedArgs with
      | some parameters => if parameters.isObj then some (f.fid, f.ffname, parameters) else none
      | none => none

/-- The end-of-stream fragment loop, written as the source's loop over the
sorted indices with an accumulator of extracted calls. -/
def extractGo (parse : List Char → Option Json) (fs : Frags) :
    List Nat → List (List Char × List Char × Json)
  | [] => []
  | index :: rest =>
    match lookupKey index fs with
    | none => extractGo parse fs rest
    | some f =>
      match parseOneFragment parse f with
      | none => extractGo parse fs rest
      | some call => call :: extractGo parse fs rest

/-- See `extractGo`: the whole end-of-stream fragment loop. -/
def extractToolCalls (parse : List Char → Option Json) (fs : Frags) :
    List (List Char × List Char × Json) :=
  extractGo parse fs (sortedKeys fs)

/-- Does a tool result end the interaction (completion sentinel, denial
sentinel, or the `[Tool Error] ` prefix)? -/
def stopsInteraction (result : List Char) : Bool :=
  result = "COMPLETION_SIGNALLED".toList ∨
    result = "The user denied this operation.".toList ∨
    isPre "[Tool Error] ".toList result

/-- Execute the extracted calls in order via the orchestrator `exec`
oracle; `true` means the interaction continues to another turn. -/
def execToolCalls (exec : List Char → List Char → Json → List Char) :
    List (List Char × List Char × Json) → Bool
  | [] => true
  | (toolId, toolName, params) :: rest =>
    if stopsInteraction (exec toolId toolName params) then false
    else execToolCalls exec rest

/-- The turn loop of `handle_interaction_request`: process each turn's
stream, break when no tool call parses or a tool result ends the
interaction, else continue with the next stream.  Returns the final value
of `tool_call_fragments` (the last processed turn's, as the Python
variable leaks out of the loop) and every stream message emitted.  Fuel is
`max_turns`. -/
def runTurns (parse : List Char → Option Json)
    (exec : List Char → List Char → Json → List Char) :
    Nat → List (List ToolChunk) → Frags → Frags × List Msg
  | 0, _, lastFrags => (lastFrags, [])
  | _ + 1, [], _ => ([], [])
  | fuel + 1, stream :: rest, _ =>
    let (frags, msgs) := processStream stream
    let calls := extractToolCalls parse frags
    if calls.isEmpty then (frags, msgs)
    else if execToolCalls exec calls then
      let (finalFrags, laterMsgs) := runTurns parse exec fuel rest frags
      (finalFrags, msgs ++ laterMsgs)
    else (frags, msgs)

/-- `max_turns` (src/llm_worker.py). -/
def max_turns : Nat := 10

/-- The end-of-interaction `tool_json_end` markers: one per fragment of
the final `tool_call_fragments`, in index order, for truthy ids. -/
def endMarkers (fs : Frags) : List Msg :=
  (sortedKeys fs).filterMap (fun index =>
    (lookupKey index fs).bind (fun f =>
      if f.fid ≠ [] then some ⟨"tool_json_end".toList, f.fid, [], none⟩ else none))

/-- A whole error-free interaction of `handle_interaction_request`:
the turn loop's stream messages followed by the end markers for the last
processed turn's fragments. -/
def handle_interaction (parse : List Char → Option Json)
    (exec : List Char → List Char → Json → List Char)
    (streams : List (List ToolChunk)) : List Msg :=
  let (finalFrags, msgs) := runTurns parse exec max_turns streams []
  msgs ++ endMarkers finalFrags

/-- The ids of the `tool_json` start markers of a message trace. -/
def toolJsonIds (msgs : List Msg) : List (List Char) :=
  msgs.filterMap (fun m => if m.role = "tool_json".toList then some m.toolId else none)

/-- The fragment initialisations a stream performs, computed statically:
the (index, id) pairs of chunks that first mention an index with truthy id
and name. -/
def initStep (st : List Nat × List (Nat × List Char)) (ch : ToolChunk) :
    List Nat × List (Nat × List Char) :=
  match ch.index with
  | none => st
  | some index =>
    if index ∈ st.1 then st
    else
      match ch.id, ch.fname with
      | some toolId, some funcName =>
        if toolId ≠ [] ∧ funcName ≠ [] then
          (st.1 ++ [index], st.2 ++ [(index, toolId)])
        else st
      | _, _ => st

/-- See `initStep`: the initialisations of a whole stream. -/
def streamInits (chunks : List ToolChunk) : List (Nat × List Char) :=
  (chunks.foldl initStep ([], [])).2

/-- The precedence discipline of the stream output: in every prefix of the
message list, a `tool_json_args` message for an id is preceded by a
`tool_json` start marker for that id. -/
def PrefixPrec (ms : List Msg) : Prop :=
  ∀ p, p <+: ms → ∀ x,
    (∃ m ∈ p, m.role = "tool_json_args".toList ∧ m.toolId = x) →
    ∃ m ∈ p, m.role = "tool_json".toList ∧ m.toolId = x

/-- The ids of all fragment initialisations across an interaction's
streams, in order. -/
def allInitIds (streams : List (List ToolChunk)) : List (List Char) :=
  (streams.map (fun s => (streamInits s).map Prod.snd)).join

/-- A JSON parser recognising only the literal empty object, enough for
the concrete interaction below. -/
def c4_parse : List Char → Option Json :=
  fun s => if s = "\x7b\x7d".toList then some (Json.obj []) else none

/-- A tool-execution oracle that always reports plain success, so the
interaction continues to the next turn. -/
def c4_exec : List Char → List Char → Json → List Char :=
  fun _ _ _ => "Tool executed successfully.".toList

/-- One stream chunk starting tool call id `"a"` with complete arguments. -/
def c4_chunk : ToolChunk :=
  ⟨some 0, some "a".toList, some "execute_command".toList, some "\x7b\x7d".toList⟩

/-- A two-turn interaction: turn 1 calls a tool (successfully executed),
turn 2 is a plain text answer with no tool calls. -/
def c4_streams : List (List ToolChunk) := [[c4_chunk], []]

/-- A diff whose first SEARCH block is empty and whose second is good,
for exercising the per-block error handling. -/
def c7_diff : List Char :=
  ("<<<<<<< SEARCH\n\n=======\nX\n>>>>>>> REPLACE\n" ++
    "<<<<<<< SEARCH\nfoo\n=======\nbar\n>>>>>>> REPLACE").toList

/-- A file content for the empty-SEARCH-block scenario. -/
def c7_content : List Char := "foo\nbar\n".toList

/-- Pairwise disjointness of the 1-based `[start, end)` line ranges of a
replacement plan. -/
def PlanDisjoint (plan : List PlanEntry) : Prop :=
  plan.Pairwise (fun e1 e2 =>
    ∀ n, ¬(e1.1 ≤ n ∧ n < e1.2.1 ∧ e2.1 ≤ n ∧ n < e2.2.1))

/-- The loop invariant of the block loop of `replace_in_file`: every line
covered by a plan entry has its 0-based index recorded in `used`, and the
plan's ranges are pairwise disjoint. -/
def BlockInv (st : BlockState) : Prop :=
  (∀ e ∈ st.plan, ∀ n, e.1 ≤ n → n < e.2.1 → (n - 1) ∈ st.used) ∧
    PlanDisjoint st.plan

/-! ## Claim C1 — the literal replace_in_file example -/

/-- The cached content of `/tmp/proj/x.py` in the spec's example. -/
def c1_content : List Char := "def add(a,b):\n    return a+b\n".toList

/-- The diff of the spec's example tool call. -/
def c1_diff : List Char :=
  "<<<<<<< SEARCH\n    return a+b\n=======\n    return a + b\n>>>>>>> REPLACE".toList

/-- C1, counterexample: on the example file and diff, `replace_in_file`
submits the plan `[(2, 3, "    return a + b")]` — the replacement text
does not end in a newline, because the newline before the `>>>>>>> REPLACE`
marker belongs to the marker, so the claimed plan
`[(2, 3, "    return a + b\n")]` is not what is submitted. -/
theorem claim1_counterexample :
    replace_in_file c1_content c1_diff =
      .submit [(2, 3, "    return a + b".toList)] ∧
    replace_in_file c1_content c1_diff ≠
      .submit [(2, 3, "    return a + b\n".toList)] := by
  constructor
  · decide
  · decide

/-- C1, amended: on the example file and diff, `replace_in_file` emits
exactly the plan `[(2, 3, "    return a + b")]` (1-based inclusive start
line, 1-based exclusive end line, replacement text without a trailing
newline) and submits it to the editor's replace-regions call. -/
theorem claim1_plan_submitted :
    replace_in_file c1_content c1_diff =
      .submit [(2, 3, "    return a + b".toList)] := by
  decide

/-! ## Claim C3 — the per-line similarity function -/

/-- C3, counterexample: on the lines `"cadb"` and `"abdc"` (both already
stripped and non-empty) the code's similarity is difflib's value
`2·1/8 = 1/4` (the greedy longest-match recursion matches only `"c"`),
while the longest-common-subsequence ratio is `2·2/8 = 1/2` (the LCS
`"ab"` has length 2): the similarity is not the LCS ratio. -/
theorem claim3_counterexample :
    compare_stripped_lines "cadb".toList "abdc".toList = mkRat 1 4 ∧
    sim_spec "cadb".toList "abdc".toList = mkRat 1 2 ∧
    compare_stripped_lines "cadb".toList "abdc".toList ≠
      sim_spec "cadb".toList "abdc".toList := by
  refine ⟨by decide, by decide, by decide⟩

/-- C3, amended: for every pair of lines, if both strip to the empty
string the similarity is 1.0; if exactly one strips to the empty string it
is 0.0; otherwise it is difflib's `SequenceMatcher` (Ratcliff–Obershelp)
ratio of the whitespace-stripped lines — which is not in general their
longest-common-subsequence ratio. -/
theorem claim3_similarity_cases (line1 line2 : List Char) :
    (pyStrip line1 = [] → pyStrip line2 = [] →
      compare_stripped_lines line1 line2 = 1) ∧
    ((pyStrip line1 = [] ∧ pyStrip line2 ≠ []) ∨
        (pyStrip line1 ≠ [] ∧ pyStrip line2 = []) →
      compare_stripped_lines line1 line2 = 0) ∧
    (pyStrip line1 ≠ [] → pyStrip line2 ≠ [] →
      compare_stripped_lines line1 line2 =
        smScore (pyStrip line1) (pyStrip line2)) := by
  refine ⟨fun h1 h2 => ?_, fun h => ?_, fun h1 h2 => ?_⟩
  · simp [compare_stripped_lines, h1, h2]
  · rcases h with ⟨h1, h2⟩ | ⟨h1, h2⟩ <;> simp [compare_stripped_lines, h1, h2]
  · simp [compare_stripped_lines, h1, h2]

/-! ## Claim C6 — the chat-file context invariant -/

theorem slashGo_append (t : List Char) :
    ∀ (s cur : List Char), (∀ c ∈ s, c ≠ '/') →
      slashGo cur (s ++ t) = slashGo (s.reverse ++ cur) t := by
  intro s
  induction s with
  | nil => intro cur _; simp
  | cons c s ih =>
    intro cur h
    have hc : c ≠ '/' := h c (by simp)
    simp only [List.cons_append, slashGo, if_neg hc, List.append_eq]
    rw [ih (c :: cur) (fun x hx => h x (by simp [hx]))]
    simp

theorem splitSlash_joinSlash :
    ∀ segs : List (List Char), segs ≠ [] →
      (∀ seg ∈ segs, ∀ c ∈ seg, c ≠ '/') →
      splitSlash (joinSlash segs) = segs := by
  intro segs
  induction segs with
  | nil => intro h; exact absurd rfl h
  | cons s rest ih =>
    intro _ h
    match rest with
    | [] =>
      show slashGo [] (joinSlash [s]) = [s]
      have : joinSlash [s] = s ++ [] := by simp [joinSlash]
      rw [this, slashGo_append [] s [] (h s (by simp))]
      simp [slashGo]
    | s2 :: rest2 =>
      show slashGo [] (joinSlash (s :: s2 :: rest2)) = s :: s2 :: rest2
      have hj : joinSlash (s :: s2 :: rest2) = s ++ '/' :: joinSlash (s2 :: rest2) := rfl
      rw [hj, slashGo_append ('/' :: joinSlash (s2 :: rest2)) s [] (h s (by simp))]
      have := ih (by simp) (fun seg hseg c hc => h seg (by simp [hseg]) c hc)
      simp only [slashGo, if_pos rfl, List.append_nil, List.reverse_reverse, if_true]
      rw [show slashGo [] (joinSlash (s2 :: rest2)) = splitSlash (joinSlash (s2 :: rest2)) from rfl,
        this]

theorem mem_slashGo_noSlash :
    ∀ (s cur seg : List Char), (∀ c ∈ cur, c ≠ '/') →
      seg ∈ slashGo cur s → ∀ c ∈ seg, c ≠ '/' := by
  intro s
  induction s with
  | nil =>
    intro cur seg hcur hseg
    simp only [slashGo, List.mem_singleton] at hseg
    subst hseg
    intro c hc
    exact hcur c (by simpa using hc)
  | cons x rest ih =>
    intro cur seg hcur hseg
    by_cases hx : x = '/'
    · simp only [slashGo, if_pos hx, List.mem_cons] at hseg
      rcases hseg with h | h
      · subst h; intro c hc; exact hcur c (by simpa using hc)
      · exact ih [] seg (by simp) h
    · simp only [slashGo, if_neg hx] at hseg
      refine ih (x :: cur) seg ?_ hseg
      intro c hc
      rcases List.mem_cons.mp hc with h | h
      · subst h; exact hx
      · exact hcur c h

theorem mem_splitSlash_noSlash (s seg : List Char) (h : seg ∈ splitSlash s) :
    ∀ c ∈ seg, c ≠ '/' :=
  mem_slashGo_noSlash s [] seg (by simp) h

theorem mem_foldl_normStep :
    ∀ (l : List (List Char)) (acc : List (List Char)) (seg : List Char),
      seg ∈ l.foldl normStep acc → seg ∈ acc ∨ seg ∈ l := by
  intro l
  induction l with
  | nil => intro acc seg h; exact Or.inl (by simpa using h)
  | cons x xs ih =>
    intro acc seg h
    rcases ih (normStep acc x) seg h with h' | h'
    · unfold normStep at h'
      split at h'
      · exact Or.inl h'
      · split at h'
        · exact Or.inl (List.dropLast_subset _ h')
        · rcases List.mem_append.mp h' with h'' | h''
          · exact Or.inl h''
          · simp only [List.mem_singleton] at h''
            subst h''
            exact Or.inr (by simp)
    · exact Or.inr (by simp [h'])

theorem mem_normAbs (l : List (List Char)) (seg : List Char)
    (h : seg ∈ normAbs l) : seg ∈ l := by
  rcases mem_foldl_normStep l [] seg h with h' | h'
  · simp at h'
  · exact h'

theorem mem_absOf_noSlash (cwd : List (List Char)) (p : List Char)
    (hcwd : ∀ seg ∈ cwd, ∀ c ∈ seg, c ≠ '/') (seg : List Char)
    (h : seg ∈ absOf cwd p) : ∀ c ∈ seg, c ≠ '/' := by
  unfold absOf at h
  split at h
  · exact mem_splitSlash_noSlash p seg (mem_normAbs _ seg h)
  · rcases List.mem_append.mp (mem_normAbs _ seg h) with h' | h'
    · exact hcwd seg h'
    · exact mem_splitSlash_noSlash p seg h'

theorem relSegs_ne_nil (pathAbs startAbs : List (List Char)) :
    relSegs pathAbs startAbs ≠ [] := by
  unfold relSegs
  dsimp only
  split
  · simp
  · assumption

theorem mem_relSegs (pathAbs startAbs : List (List Char)) (seg : List Char)
    (h : seg ∈ relSegs pathAbs startAbs) :
    seg = "..".toList ∨ seg = ".".toList ∨ seg ∈ pathAbs := by
  unfold relSegs at h
  dsimp only at h
  split at h
  · simp only [List.mem_singleton] at h
    exact Or.inr (Or.inl h)
  · rcases List.mem_append.mp h with h' | h'
    · exact Or.inl (List.eq_of_mem_replicate h')
    · exact Or.inr (Or.inr (List.mem_of_mem_drop h'))

theorem mem_addRel_noSlash (cwd : List (List Char)) (sessionPath filename : List Char)
    (hcwd : ∀ seg ∈ cwd, ∀ c ∈ seg, c ≠ '/') (seg : List Char)
    (h : seg ∈ addRel cwd sessionPath filename) : ∀ c ∈ seg, c ≠ '/' := by
  rcases mem_relSegs _ _ seg h with h' | h' | h'
  · subst h'; decide
  · subst h'; decide
  · exact mem_absOf_noSlash cwd filename hcwd seg h'

theorem splitSlash_addRel (cwd : List (List Char)) (sessionPath filename : List Char)
    (hcwd : ∀ seg ∈ cwd, ∀ c ∈ seg, c ≠ '/') :
    splitSlash (joinSlash (addRel cwd sessionPath filename)) =
      addRel cwd sessionPath filename :=
  splitSlash_joinSlash _ (relSegs_ne_nil _ _)
    (fun seg hseg => mem_addRel_noSlash cwd sessionPath filename hcwd seg hseg)

theorem add_file_preserves (fs : FileSys) (cwd : List (List Char))
    (sessionPath : List Char) (hcwd : ∀ seg ∈ cwd, ∀ c ∈ seg, c ≠ '/')
    (cf : List (List Char)) (filename : List Char)
    (hnd : cf.Nodup) (hinv : ∀ P ∈ cf, goodChatFile fs sessionPath P) :
    (add_file_to_context fs cwd sessionPath cf filename).1.Nodup ∧
      ∀ P ∈ (add_file_to_context fs cwd sessionPath cf filename).1,
        goodChatFile fs sessionPath P := by
  unfold add_file_to_context
  dsimp only
  split
  · exact ⟨hnd, hinv⟩
  · split
    · exact ⟨hnd, hinv⟩
    · split
      · exact ⟨hnd, hinv⟩
      · rename_i hfile hpre hmem
        constructor
        · simp only [List.nodup_append, List.nodup_cons, List.nodup_nil]
          refine ⟨hnd, by simp, ?_⟩
          intro a ha hb
          simp only [List.mem_singleton] at hb
          subst hb
          exact hmem ha
        · intro P hP
          rcases List.mem_append.mp hP with h | h
          · exact hinv P h
          · simp only [List.mem_singleton] at h
            subst h
            constructor
            · rw [splitSlash_addRel cwd sessionPath filename hcwd]
              simpa using hfile
            · rw [splitSlash_addRel cwd sessionPath filename hcwd]
              simpa using hpre

theorem runFileOps_invariant (fs : FileSys) (cwd : List (List Char))
    (sessionPath : List Char) (hcwd : ∀ seg ∈ cwd, ∀ c ∈ seg, c ≠ '/') :
    ∀ (ops : List FileOp) (cf : List (List Char)), cf.Nodup →
      (∀ P ∈ cf, goodChatFile fs sessionPath P) →
      (runFileOps fs cwd sessionPath cf ops).Nodup ∧
        ∀ P ∈ runFileOps fs cwd sessionPath cf ops, goodChatFile fs sessionPath P := by
  intro ops
  induction ops with
  | nil => intro cf hnd hinv; exact ⟨hnd, hinv⟩
  | cons op rest ih =>
    intro cf hnd hinv
    match op with
    | .add f =>
      have h := add_file_preserves fs cwd sessionPath hcwd cf f hnd hinv
      exact ih _ h.1 h.2
    | .remove f =>
      simp only [runFileOps]
      unfold remove_file_from_context
      dsimp only
      by_cases hmem :
          (if isAbsPath f = true then joinSlash (addRel cwd sessionPath f) else f) ∈ cf
      · simp only [if_pos hmem]
        refine ih _ (hnd.erase _) ?_
        intro P hP
        exact hinv P (List.mem_of_mem_erase hP)
      · simp only [if_neg hmem]
        exact ih cf hnd hinv

/-- C6, counterexample: with session directory `/tmp/proj` and an existing
regular file `/tmp/proj2/x` in a sibling directory, `add_file_to_context`
succeeds (the `startswith` check is a raw string-prefix test, and
`"/tmp/proj"` is a string prefix of `"/tmp/proj2/x"`), so afterwards
`chat_files` holds `"../proj2/x"`, whose absolute path does not lie inside
the session directory — refuting both the stated invariant and the claim
that adds of files outside the session directory fail. -/
theorem claim6_counterexample :
    (add_file_to_context c6_fs [] c6_session [] "/tmp/proj2/x".toList).2 = true ∧
    runFileOps c6_fs [] c6_session [] [.add "/tmp/proj2/x".toList] =
      ["../proj2/x".toList] ∧
    insideDir c6_session
      (renderAbs (absJoin (splitSlash c6_session) (splitSlash "../proj2/x".toList))) =
      false := by
  refine ⟨by decide, by decide, by decide⟩

/-- C6, amended: after any sequence of add-file and remove-file operations
(from an empty context, over a fixed filesystem, with a slash-free current
directory), `chat_files` contains no duplicate entries, and every path `P`
in it resolves to an existing regular file whose absolute path string has
the session path as a raw string prefix — the code's `startswith` check,
which unlike genuine directory containment also admits files in sibling
directories whose names extend the session directory's name.
`add_file_to_context` fails, leaving the context unchanged, when the
target is missing or not a regular file, when the re-resolved absolute
path fails the string-prefix check, or when the entry is already present. -/
theorem claim6_invariant (fs : FileSys) (cwd : List (List Char))
    (sessionPath : List Char) (ops : List FileOp)
    (hcwd : ∀ seg ∈ cwd, ∀ c ∈ seg, c ≠ '/') :
    ((runFileOps fs cwd sessionPath [] ops).Nodup ∧
      ∀ P ∈ runFileOps fs cwd sessionPath [] ops, goodChatFile fs sessionPath P) ∧
    (∀ (cf : List (List Char)) (f : List Char),
      isFileFS fs (addAbs cwd sessionPath f) = false →
        add_file_to_context fs cwd sessionPath cf f = (cf, false)) ∧
    (∀ (cf : List (List Char)) (f : List Char),
      isPre sessionPath (renderAbs (addAbs cwd sessionPath f)) = false →
        add_file_to_context fs cwd sessionPath cf f = (cf, false)) ∧
    (∀ (cf : List (List Char)) (f : List Char),
      joinSlash (addRel cwd sessionPath f) ∈ cf →
        add_file_to_context fs cwd sessionPath cf f = (cf, false)) := by
  refine ⟨runFileOps_invariant fs cwd sessionPath hcwd ops [] (by simp) (by simp),
    ?_, ?_, ?_⟩
  · intro cf f h
    unfold add_file_to_context
    dsimp only
    simp [h]
  · intro cf f h
    unfold add_file_to_context
    dsimp only
    split
    · rfl
    · simp [h]
  · intro cf f h
    unfold add_file_to_context
    dsimp only
    split
    · rfl
    · split
      · rfl
      · simp [h]

/-- C6, witness: the amended invariant applied to the counterexample's
concrete filesystem, session and operation list. -/
theorem claim6_invariant_witness :
    ((runFileOps c6_fs [] c6_session [] [.add "/tmp/proj2/x".toList]).Nodup ∧
      ∀ P ∈ runFileOps c6_fs [] c6_session [] [.add "/tmp/proj2/x".toList],
        goodChatFile c6_fs c6_session P) ∧
    (∀ (cf : List (List Char)) (f : List Char),
      isFileFS c6_fs (addAbs [] c6_session f) = false →
        add_file_to_context c6_fs [] c6_session cf f = (cf, false)) ∧
    (∀ (cf : List (List Char)) (f : List Char),
      isPre c6_session (renderAbs (addAbs [] c6_session f)) = false →
        add_file_to_context c6_fs [] c6_session cf f = (cf, false)) ∧
    (∀ (cf : List (List Char)) (f : List Char),
      joinSlash (addRel [] c6_session f) ∈ cf →
        add_file_to_context c6_fs [] c6_session cf f = (cf, false)) :=
  claim6_invariant c6_fs [] c6_session [.add "/tmp/proj2/x".toList] (by simp)

/-! ## Claim C2 — disjointness of the submitted plan -/

theorem matchesAt_fresh (fileLines : List (List Char)) (used : List Nat)
    (searchLines : List (List Char)) (s : Nat)
    (h : matchesAt fileLines used searchLines s = true) :
    ∀ k, k < searchLines.length → (s + k) ∉ used := by
  simp only [matchesAt, Bool.and_eq_true, decide_eq_true_eq, List.all_eq_true] at h
  obtain ⟨⟨h0, -⟩, hrest⟩ := h
  intro k hk
  match k with
  | 0 => simpa using h0
  | k + 1 =>
    have hmem : (k + 1) ∈ List.range' 1 (searchLines.length - 1) := by
      rw [List.mem_range'_1]
      omega
    have := hrest (k + 1) hmem
    simp only [Bool.and_eq_true, decide_eq_true_eq] at this
    exact this.1.2

theorem findMatchStart_matches (fileLines : List (List Char)) (used : List Nat)
    (searchLines : List (List Char)) (s : Nat)
    (h : findMatchStart fileLines used searchLines = some s) :
    matchesAt fileLines used searchLines s = true := by
  unfold findMatchStart at h
  exact List.find?_some h

theorem processBlock_inv (fileLines : List (List Char)) (st : BlockState)
    (blockIndex : Nat) (block : List Char × List Char) (hinv : BlockInv st) :
    BlockInv (processBlock fileLines st blockIndex block) ∧
      ∀ n ∈ st.used, n ∈ (processBlock fileLines st blockIndex block).used := by
  unfold processBlock
  dsimp only
  split
  · exact ⟨hinv, fun n hn => hn⟩
  · split
    · rename_i searchLinesNonempty s hfind
      have hmatch := findMatchStart_matches _ _ _ _ hfind
      have hfresh := matchesAt_fresh _ _ _ _ hmatch
      obtain ⟨hcov, hdisj⟩ := hinv
      refine ⟨⟨?_, ?_⟩, ?_⟩
      · intro e he n h1 h2
        rcases List.mem_append.mp he with h | h
        · exact List.mem_append.mpr (Or.inl (hcov e h n h1 h2))
        · simp only [List.mem_singleton] at h
          subst h
          simp only at h1 h2
          refine List.mem_append.mpr (Or.inr ?_)
          rw [List.mem_range'_1]
          omega
      · rw [PlanDisjoint, List.pairwise_append]
        refine ⟨hdisj, List.pairwise_singleton _ _, ?_⟩
        intro e he e' he' n ⟨hn1, hn2, hn3, hn4⟩
        simp only [List.mem_singleton] at he'
        subst he'
        simp only at hn3 hn4
        have hused : (n - 1) ∈ st.used := hcov e he n hn1 hn2
        have : (n - 1) ∉ st.used := by
          have : n - 1 = s + (n - 1 - s) := by omega
          rw [this]
          exact hfresh (n - 1 - s) (by omega)
        exact this hused
      · intro n hn
        exact List.mem_append.mpr (Or.inl hn)
    · exact ⟨hinv, fun n hn => hn⟩

theorem applyBlocksFrom_inv (fileLines : List (List Char)) :
    ∀ (blocks : List (List Char × List Char)) (st : BlockState) (blockIndex : Nat),
      BlockInv st → BlockInv (applyBlocksFrom fileLines st blockIndex blocks) := by
  intro blocks
  induction blocks with
  | nil => intro st i h; exact h
  | cons b bs ih =>
    intro st i h
    exact ih _ _ (processBlock_inv fileLines st i b h).1

/-- C2: whenever `replace_in_file` succeeds in building a replacement plan
and submits it to the editor, the 1-based `[start, end)` line ranges of
the plan entries are pairwise disjoint: the `used` line-index set makes
every accepted match claim only fresh lines. -/
theorem claim2_plan_disjoint (fileContent diff : List Char) (plan : List PlanEntry)
    (h : replace_in_file fileContent diff = .submit plan) : PlanDisjoint plan := by
  unfold replace_in_file at h
  split at h
  · exact absurd h (by simp)
  · split at h
    · exact absurd h (by simp)
    · rename_i parsedBlocks heq
      dsimp only at h
      split at h
      · exact absurd h (by simp)
      · split at h
        · exact absurd h (by simp)
        · split at h
          · exact absurd h (by simp)
          · have hinv : BlockInv (applyBlocks (splitLinesKeepEnds fileContent) parsedBlocks) :=
              applyBlocksFrom_inv _ parsedBlocks ⟨[], [], []⟩ 0
                ⟨by simp, List.Pairwise.nil⟩
            have hplan : plan = (applyBlocks (splitLinesKeepEnds fileContent) parsedBlocks).plan := by
              cases h; rfl
            rw [hplan]
            exact hinv.2

/-- C2, witness: the theorem applied to the concrete example of C1, whose
submitted plan is the singleton `[(2, 3, "    return a + b")]`. -/
theorem claim2_plan_disjoint_witness :
    PlanDisjoint [(2, 3, "    return a + b".toList)] :=
  claim2_plan_disjoint c1_content c1_diff [(2, 3, "    return a + b".toList)] (by decide)

/-! ## Claim C7 — empty SEARCH blocks and error aggregation -/

theorem processBlock_errors_extend (fileLines : List (List Char)) (st : BlockState)
    (blockIndex : Nat) (block : List Char × List Char) :
    st.errors <+: (processBlock fileLines st blockIndex block).errors := by
  unfold processBlock
  dsimp only
  split
  · exact List.prefix_append _ _
  · split
    · exact List.prefix_rfl
    · exact List.prefix_append _ _

theorem applyBlocksFrom_errors_extend (fileLines : List (List Char)) :
    ∀ (blocks : List (List Char × List Char)) (st : BlockState) (blockIndex : Nat),
      st.errors <+: (applyBlocksFrom fileLines st blockIndex blocks).errors := by
  intro blocks
  induction blocks with
  | nil => intro st i; exact List.prefix_rfl
  | cons b bs ih =>
    intro st i
    exact (processBlock_errors_extend fileLines st i b).trans (ih _ _)

theorem applyBlocksFrom_append (fileLines : List (List Char)) :
    ∀ (pre post : List (List Char × List Char)) (st : BlockState) (blockIndex : Nat),
      applyBlocksFrom fileLines st blockIndex (pre ++ post) =
        applyBlocksFrom fileLines (applyBlocksFrom fileLines st blockIndex pre)
          (blockIndex + pre.length) post := by
  intro pre
  induction pre with
  | nil => intro post st i; simp [applyBlocksFrom]
  | cons b bs ih =>
    intro post st i
    show applyBlocksFrom fileLines (processBlock fileLines st i b) (i + 1) (bs ++ post) = _
    rw [ih post (processBlock fileLines st i b) (i + 1)]
    have : i + (b :: bs).length = i + 1 + bs.length := by simp; omega
    rw [this]
    rfl

theorem processBlock_emptySearch (fileLines : List (List Char)) (st : BlockState)
    (blockIndex : Nat) (block : List Char × List Char)
    (hempty : pyStrip block.1 = []) :
    processBlock fileLines st blockIndex block =
      { st with errors := st.errors ++ [emptySearchError blockIndex] } := by
  unfold processBlock
  dsimp only
  rw [if_pos (Or.inr hempty)]

/-- C7: when some parsed block's SEARCH text strips to nothing,
`replace_in_file` records the per-block error for that block, still
processes the remaining blocks (the loop continues from the state after
the earlier blocks with only that error appended), and returns an
aggregated error without ever submitting a plan to the editor — so the
editor's replace-regions call is not made and neither the file nor the
session cache changes. -/
theorem claim7_empty_search_aggregates (fileContent diff : List Char)
    (blocks pre post : List (List Char × List Char)) (b : List Char × List Char)
    (hparse : parse_search_replace_blocks diff = .ok blocks)
    (hsplit : blocks = pre ++ b :: post) (hempty : pyStrip b.1 = []) :
    emptySearchError pre.length ∈
      (applyBlocks (splitLinesKeepEnds fileContent) blocks).errors ∧
    applyBlocks (splitLinesKeepEnds fileContent) blocks =
      applyBlocksFrom (splitLinesKeepEnds fileContent)
        { applyBlocksFrom (splitLinesKeepEnds fileContent) ⟨[], [], []⟩ 0 pre with
            errors :=
              (applyBlocksFrom (splitLinesKeepEnds fileContent) ⟨[], [], []⟩ 0 pre).errors
                ++ [emptySearchError pre.length] }
        (pre.length + 1) post ∧
    (∃ msg, replace_in_file fileContent diff = .error msg) ∧
    ∀ plan, replace_in_file fileContent diff ≠ .submit plan := by
  set fileLines := splitLinesKeepEnds fileContent with hfl
  have hrun : applyBlocks fileLines blocks =
      applyBlocksFrom fileLines
        { applyBlocksFrom fileLines ⟨[], [], []⟩ 0 pre with
            errors := (applyBlocksFrom fileLines ⟨[], [], []⟩ 0 pre).errors
              ++ [emptySearchError pre.length] }
        (pre.length + 1) post := by
    rw [show applyBlocks fileLines blocks =
        applyBlocksFrom fileLines ⟨[], [], []⟩ 0 blocks from rfl, hsplit,
      applyBlocksFrom_append]
    show applyBlocksFrom fileLines
        (processBlock fileLines _ (0 + pre.length) b) (0 + pre.length + 1) post = _
    rw [processBlock_emptySearch fileLines _ (0 + pre.length) b hempty]
    simp
  have hmem : emptySearchError pre.length ∈ (applyBlocks fileLines blocks).errors := by
    rw [hrun]
    have hpre := applyBlocksFrom_errors_extend fileLines post
      { applyBlocksFrom fileLines ⟨[], [], []⟩ 0 pre with
          errors := (applyBlocksFrom fileLines ⟨[], [], []⟩ 0 pre).errors
            ++ [emptySearchError pre.length] }
      (pre.length + 1)
    refine hpre.subset ?_
    simp
  have hne : (applyBlocks fileLines blocks).errors ≠ [] := by
    intro hnil
    rw [hnil] at hmem
    exact absurd hmem (List.not_mem_nil _)
  have houtcome : replace_in_file fileContent diff =
      .error (aggregatedError (applyBlocks fileLines blocks).errors) ∨
      ∃ msg, replace_in_file fileContent diff = .error msg := by
    unfold replace_in_file
    split
    · exact Or.inr ⟨_, rfl⟩
    · rw [hparse]
      dsimp only
      split
      · rename_i hblocks
        subst hblocks
        simp at hsplit
      · left
        rw [← hfl]
  have herror : ∃ msg, replace_in_file fileContent diff = .error msg := by
    rcases houtcome with h | h
    · exact ⟨_, h⟩
    · exact h
  refine ⟨hmem, hrun, herror, ?_⟩
  intro plan hplan
  obtain ⟨msg, hmsg⟩ := herror
  rw [hmsg] at hplan
  exact ReplaceOutcome.noConfusion hplan

/-- C7, witness: on a diff whose first block has an empty SEARCH text and
whose second block is well-formed, `replace_in_file` returns an error and
never submits a plan. -/
theorem claim7_witness :
    (∃ msg, replace_in_file c7_content c7_diff = .error msg) ∧
    ∀ plan, replace_in_file c7_content c7_diff ≠ .submit plan :=
  ⟨(claim7_empty_search_aggregates c7_content c7_diff _ [] [("foo".toList, "bar".toList)]
      ([], "X".toList) rfl rfl (by decide)).2.2.1,
   (claim7_empty_search_aggregates c7_content c7_diff _ [] [("foo".toList, "bar".toList)]
      ([], "X".toList) rfl rfl (by decide)).2.2.2⟩

/-! ## Claim C8 — history truncation -/

theorem truncGo_suffix (tokenizer : Option (List Char → Nat)) :
    ∀ (older : List (List Char)) (first : List Char) (kept : List (List Char))
      (currentTokens : Nat),
      ∃ j, j ≤ older.length ∧
        truncGo tokenizer older (first :: kept) currentTokens =
          first :: (older.take j).reverse ++ kept ∧
        (j < older.length →
          max_history_tokens <
              currentTokens + ((older.take j).map (count_tokens tokenizer)).sum +
                count_tokens tokenizer (older.getD j []) ∧
            min_history_messages ≤ (first :: kept).length + j) := by
  intro older
  induction older with
  | nil =>
    intro first kept currentTokens
    exact ⟨0, by simp [truncGo]⟩
  | cons msg rest ih =>
    intro first kept currentTokens
    by_cases hstop :
        max_history_tokens < currentTokens + count_tokens tokenizer msg ∧
          min_history_messages ≤ (first :: kept).length
    · refine ⟨0, by simp, ?_, ?_⟩
      · show truncGo tokenizer (msg :: rest) (first :: kept) currentTokens = _
        unfold truncGo
        rw [if_pos hstop]
        simp
      · intro _
        simpa using hstop
    · obtain ⟨j, hj, heq, hcond⟩ :=
        ih first (msg :: kept) (currentTokens + count_tokens tokenizer msg)
      refine ⟨j + 1, ?_, ?_, ?_⟩
      · simp only [List.length_cons]
        omega
      · show truncGo tokenizer (msg :: rest) (first :: kept) currentTokens = _
        unfold truncGo
        rw [if_neg hstop]
        rw [heq]
        simp
      · intro hlt
        rw [List.length_cons] at hlt
        obtain ⟨h1, h2⟩ := hcond (by omega)
        constructor
        · simp only [List.take_succ_cons, List.map_cons, List.sum_cons, List.getD_cons_succ]
          omega
        · simp only [List.length_cons] at h2 ⊢
          omega

/-- C8: history truncation keeps the first message and a contiguous
newest-first suffix of the rest in the original chronological order; it
drops older messages only when, at the stopping point, adding the next
older message would push the cumulative token count above
`max_history_tokens` while at least `min_history_messages` messages are
already kept; and the token counter returns 0 for empty text, the
tokenizer's count when one is available, and `max 1 (len / 4)` otherwise. -/
theorem claim8_truncate_history (tokenizer : Option (List Char → Nat))
    (first : List Char) (rest : List (List Char)) :
    (∃ k, k ≤ rest.length ∧
      truncate_history tokenizer (first :: rest) = first :: rest.drop k ∧
      (0 < k →
        max_history_tokens <
            count_tokens tokenizer first +
              ((rest.drop k).map (count_tokens tokenizer)).sum +
              count_tokens tokenizer (rest.getD (k - 1) []) ∧
          min_history_messages ≤ 1 + (rest.length - k))) ∧
    count_tokens tokenizer [] = 0 ∧
    (∀ text : List Char, text ≠ [] →
      count_tokens tokenizer text =
        match tokenizer with
        | some encode => encode text
        | none => max 1 (text.length / 4)) := by
  refine ⟨?_, by simp [count_tokens], fun text ht => by simp [count_tokens, ht]⟩
  obtain ⟨j, hj, heq, hcond⟩ :=
    truncGo_suffix tokenizer rest.reverse first [] (count_tokens tokenizer first)
  rw [List.length_reverse] at hj
  have hrev : (rest.reverse.take j).reverse = rest.drop (rest.length - j) := by
    rw [List.take_reverse, List.reverse_reverse]
  refine ⟨rest.length - j, by omega, ?_, ?_⟩
  · show truncGo tokenizer rest.reverse [first] (count_tokens tokenizer first) = _
    rw [heq, hrev]
    simp
  · intro hk
    have hjlt : j < rest.length := by omega
    obtain ⟨htok, hmin⟩ := hcond (by rwa [List.length_reverse])
    constructor
    · have hsum : ((rest.reverse.take j).map (count_tokens tokenizer)).sum =
          ((rest.drop (rest.length - j)).map (count_tokens tokenizer)).sum := by
        rw [← hrev, List.map_reverse, List.sum_reverse]
      have hget : rest.reverse.getD j [] = rest.getD (rest.length - j - 1) [] := by
        simp only [List.getD_eq_getElem?_getD]
        rw [List.getElem?_reverse (by simpa using hjlt)]
        have : rest.length - 1 - j = rest.length - j - 1 := by omega
        rw [this]
      rw [hsum, hget] at htok
      exact htok
    · simp only [List.length_cons, List.length_nil] at hmin
      omega

/-! ## Claim C10 — the cache effect of rendering environment details -/

theorem lookupKey_eraseKey [DecidableEq α] (k r : α) (l : List (α × β)) :
    lookupKey k (eraseKey r l) = if k = r then none else lookupKey k l := by
  induction l with
  | nil => simp [eraseKey, lookupKey]
  | cons p t ih =>
    obtain ⟨a, b⟩ := p
    simp only [eraseKey, lookupKey]
    by_cases har : a = r
    · rw [if_pos har, ih]
      by_cases hkr : k = r
      · simp [hkr]
      · rw [if_neg hkr, if_neg hkr, if_neg (fun h : a = k => hkr (h.symm.trans har))]
    · rw [if_neg har]
      by_cases hak : a = k
      · rw [show lookupKey k ((a, b) :: eraseKey r t) =
            if a = k then some b else lookupKey k (eraseKey r t) from rfl]
        rw [if_pos hak, if_pos hak,
          if_neg (fun h : k = r => har (hak.trans h))]
      · rw [show lookupKey k ((a, b) :: eraseKey r t) =
            if a = k then some b else lookupKey k (eraseKey r t) from rfl]
        rw [if_neg hak, if_neg hak, ih]

theorem lookupKey_setKey [DecidableEq α] (k r : α) (v : β) (l : List (α × β)) :
    lookupKey k (setKey r v l) = if k = r then some v else lookupKey k l := by
  by_cases hkr : k = r
  · subst hkr
    simp [setKey, lookupKey]
  · simp only [setKey, lookupKey]
    rw [if_neg (fun h => hkr h.symm), lookupKey_eraseKey, if_neg hkr, if_neg hkr]

theorem lookupKey_isSome_iff [DecidableEq α] (k : α) (l : List (α × β)) :
    (lookupKey k l).isSome ↔ ∃ v, (k, v) ∈ l := by
  induction l with
  | nil => simp [lookupKey]
  | cons p t ih =>
    obtain ⟨a, b⟩ := p
    by_cases hka : a = k
    · subst hka
      simp [lookupKey]
    · simp only [lookupKey, if_neg hka, List.mem_cons, ih]
      constructor
      · intro ⟨v, hv⟩
        exact ⟨v, Or.inr hv⟩
      · intro ⟨v, hv⟩
        rcases hv with hv | hv
        · exact absurd (congrArg Prod.fst hv).symm hka
        · exact ⟨v, hv⟩

theorem mem_insertStr (x s : List Char) (l : List (List Char)) :
    x ∈ insertStr s l → x = s ∨ x ∈ l := by
  induction l with
  | nil => intro h; simpa [insertStr] using h
  | cons t ts ih =>
    intro h
    unfold insertStr at h
    split at h
    · rcases List.mem_cons.mp h with h | h
      · exact Or.inl h
      · exact Or.inr h
    · rcases List.mem_cons.mp h with h | h
      · exact Or.inr (by simp [h])
      · rcases ih h with h | h
        · exact Or.inl h
        · exact Or.inr (by simp [h])

theorem mem_sortStrs (x : List Char) (l : List (List Char)) :
    x ∈ sortStrs l → x ∈ l := by
  induction l with
  | nil => intro h; simpa [sortStrs] using h
  | cons s ss ih =>
    intro h
    rcases mem_insertStr x s (sortStrs ss) h with h | h
    · simp [h]
    · simp [ih h]

/-- The keys `_update_file_cache` can touch are only its own `rel_path`. -/
theorem update_file_cache_key_containment
    (fsm : List Char → Option (Nat × List Char)) (c : Caches) (rel : List Char)
    (content : Option (List Char)) (k : List Char) :
    (((lookupKey k (update_file_cache fsm c rel content).1.mtimes).isSome →
        k = rel ∨ (lookupKey k c.mtimes).isSome) ∧
     ((lookupKey k (update_file_cache fsm c rel content).1.contents).isSome →
        k = rel ∨ (lookupKey k c.contents).isSome)) := by
  unfold update_file_cache
  split
  · constructor
    · intro h
      rw [lookupKey_eraseKey] at h
      split at h
      · simp at h
      · exact Or.inr h
    · intro h
      rw [lookupKey_eraseKey] at h
      split at h
      · simp at h
      · exact Or.inr h
  · split
    · constructor
      · intro h
        rw [lookupKey_setKey] at h
        split at h
        · exact Or.inl (by assumption)
        · exact Or.inr h
      · intro h
        rw [lookupKey_setKey] at h
        split at h
        · exact Or.inl (by assumption)
        · exact Or.inr h
    · split
      · exact ⟨fun h => Or.inr h, fun h => Or.inr h⟩
      · constructor
        · intro h
          rw [lookupKey_setKey] at h
          split at h
          · exact Or.inl (by assumption)
          · exact Or.inr h
        · intro h
          rw [lookupKey_setKey] at h
          split at h
          · exact Or.inl (by assumption)
          · exact Or.inr h

theorem refresh_fold_containment (fsm : List Char → Option (Nat × List Char))
    (chatFiles : List (List Char)) :
    ∀ (l : List (List Char)) (cc : Caches),
      (∀ rel ∈ l, rel ∈ chatFiles) →
      (∀ k, ((lookupKey k cc.mtimes).isSome ∨ (lookupKey k cc.contents).isSome) →
        k ∈ chatFiles) →
      ∀ k,
        ((lookupKey k ((l.foldl (fun cc rel => (update_file_cache fsm cc rel none).1) cc)).mtimes).isSome ∨
         (lookupKey k ((l.foldl (fun cc rel => (update_file_cache fsm cc rel none).1) cc)).contents).isSome) →
        k ∈ chatFiles := by
  intro l
  induction l with
  | nil => intro cc _ hcc k h; exact hcc k h
  | cons rel rest ih =>
    intro cc hl hcc k h
    refine ih (update_file_cache fsm cc rel none).1 (fun r hr => hl r (by simp [hr])) ?_ k h
    intro k' hk'
    obtain ⟨hm, hc⟩ := update_file_cache_key_containment fsm cc rel none k'
    rcases hk' with hk' | hk'
    · rcases hm hk' with h' | h'
      · subst h'; exact hl k' (by simp)
      · exact hcc k' (Or.inl h')
    · rcases hc hk' with h' | h'
      · subst h'; exact hl k' (by simp)
      · exact hcc k' (Or.inr h')

/-- C10: rendering environment details is not read-only on the caches.
With a non-empty `chat_files`, after `get_environment_details_string`
returns every key remaining in the mtime and content caches belongs to
`chat_files` (entries for files no longer in context are evicted, and the
refresh loop touches only chat files); with an empty `chat_files` the
caches are left untouched.  The hypothesis states the session's standing
cache-consistency invariant: every content key also has an mtime entry,
which all cache-writing paths of the source maintain. -/
theorem claim10_env_details_caches (fsm : List Char → Option (Nat × List Char))
    (chatFiles : List (List Char)) (c : Caches)
    (hsub : ∀ k, (lookupKey k c.contents).isSome → (lookupKey k c.mtimes).isSome) :
    get_environment_details_caches fsm [] c = c ∧
    (chatFiles ≠ [] →
      ∀ k,
        ((lookupKey k (get_environment_details_caches fsm chatFiles c).mtimes).isSome ∨
         (lookupKey k (get_environment_details_caches fsm chatFiles c).contents).isSome) →
        k ∈ chatFiles) := by
  constructor
  · simp [get_environment_details_caches]
  · intro hne k hk
    unfold get_environment_details_caches at hk
    rw [if_neg hne] at hk
    refine refresh_fold_containment fsm chatFiles (sortStrs chatFiles) (evictStale chatFiles c)
      (fun r hr => mem_sortStrs r chatFiles hr) ?_ k hk
    intro k' hk'
    rcases hk' with hk' | hk'
    · rw [lookupKey_isSome_iff] at hk'
      obtain ⟨v, hv⟩ := hk'
      have := List.of_mem_filter hv
      simpa using this
    · rw [lookupKey_isSome_iff] at hk'
      obtain ⟨v, hv⟩ := hk'
      have hmem := List.mem_of_mem_filter hv
      have hp := List.of_mem_filter hv
      simp only [decide_eq_true_eq, Bool.or_eq_true, Option.isNone_iff_eq_none] at hp
      rcases hp with hp | hp
      · simpa using hp
      · exfalso
        have : (lookupKey k' c.contents).isSome := by
          rw [lookupKey_isSome_iff]
          exact ⟨v, hmem⟩
        have := hsub k' this
        rw [hp] at this
        simp at this

/-- C10, witness: applied to a concrete one-file session whose caches hold
a stale entry `"old"`. -/
theorem claim10_witness :
    get_environment_details_caches
        (fun r => if r = "a.txt".toList then some (5, "hello\n".toList) else none)
        [] ⟨[("old".toList, 1)], [("old".toList, "o".toList)]⟩ =
      ⟨[("old".toList, 1)], [("old".toList, "o".toList)]⟩ ∧
    (["a.txt".toList] ≠ [] →
      ∀ k,
        ((lookupKey k (get_environment_details_caches
            (fun r => if r = "a.txt".toList then some (5, "hello\n".toList) else none)
            ["a.txt".toList]
            ⟨[("old".toList, 1)], [("old".toList, "o".toList)]⟩).mtimes).isSome ∨
         (lookupKey k (get_environment_details_caches
            (fun r => if r = "a.txt".toList then some (5, "hello\n".toList) else none)
            ["a.txt".toList]
            ⟨[("old".toList, 1)], [("old".toList, "o".toList)]⟩).contents).isSome) →
        k ∈ ["a.txt".toList]) :=
  claim10_env_details_caches
    (fun r => if r = "a.txt".toList then some (5, "hello\n".toList) else none)
    ["a.txt".toList] ⟨[("old".toList, 1)], [("old".toList, "o".toList)]⟩
    (by
      intro k hk
      rw [lookupKey_isSome_iff] at hk ⊢
      obtain ⟨v, hv⟩ := hk
      simp only [List.mem_singleton, Prod.mk.injEq] at hv
      exact ⟨1, by simp [hv.1]⟩)

/-! ## Claim C5 — end-of-stream argument parsing -/

theorem extractGo_eq_filterMap (parse : List Char → Option Json) (fs : Frags) :
    ∀ ks : List Nat,
      extractGo parse fs ks =
        ks.filterMap (fun index => (lookupKey index fs).bind (parseOneFragment parse)) := by
  intro ks
  induction ks with
  | nil => rfl
  | cons index rest ih =>
    show (match lookupKey index fs with
      | none => extractGo parse fs rest
      | some f =>
        match parseOneFragment parse f with
        | none => extractGo parse fs rest
        | some call => call :: extractGo parse fs rest) = _
    rw [List.filterMap_cons]
    cases hlook : lookupKey index fs with
    | none => simpa [hlook] using ih
    | some f =>
      cases hparse : parseOneFragment parse f with
      | none => simpa [hlook, hparse] using ih
      | some call => simpa [hlook, hparse] using congrArg (call :: ·) ih

/-- C5: after the stream closes the Worker processes the accumulated
fragments in ascending stream-index order; a fragment whose stripped
arguments text is empty parses to the empty parameter object, one whose
arguments are malformed JSON or parse to a non-object is skipped — it
never reaches the extracted list that is sent as `tool_request`s — and
every other fragment is still parsed and attempted regardless of earlier
failures: the extracted list is exactly the filter-map of the per-fragment
parse over the sorted indices. -/
theorem claim5_argument_parsing (parse : List Char → Option Json) (fs : Frags) :
    extractToolCalls parse fs =
      (sortedKeys fs).filterMap
        (fun index => (lookupKey index fs).bind (parseOneFragment parse)) ∧
    (∀ f : Frag, f.fid ≠ [] → f.ffname ≠ [] → pyStrip f.fargs = [] →
      parseOneFragment parse f = some (f.fid, f.ffname, Json.obj [])) ∧
    (∀ f : Frag, pyStrip f.fargs ≠ [] → parse (pyStrip f.fargs) = none →
      parseOneFragment parse f = none) ∧
    (∀ (f : Frag) (j : Json), pyStrip f.fargs ≠ [] → parse (pyStrip f.fargs) = some j →
      j.isObj = false → parseOneFragment parse f = none) ∧
    (∀ (index : Nat) (f : Frag) (call : List Char × List Char × Json),
      index ∈ sortedKeys fs → lookupKey index fs = some f →
      parseOneFragment parse f = some call → call ∈ extractToolCalls parse fs) := by
  refine ⟨extractGo_eq_filterMap parse fs (sortedKeys fs), ?_, ?_, ?_, ?_⟩
  · intro f hid hname hstrip
    simp [parseOneFragment, hid, hname, hstrip]
  · intro f hstrip hparse
    unfold parseOneFragment
    split
    · rfl
    · rw [if_neg hstrip, hparse]
  · intro f j hstrip hparse hobj
    unfold parseOneFragment
    split
    · rfl
    · rw [if_neg hstrip, hparse]
      simp [hobj]
  · intro index f call hmem hlook hparse
    rw [show extractToolCalls parse fs = extractGo parse fs (sortedKeys fs) from rfl,
      extractGo_eq_filterMap]
    exact List.mem_filterMap.mpr ⟨index, hmem, by simp [hlook, hparse]⟩

/-! ## Claim C9 — the environment-details filter -/

theorem isPre_iff [DecidableEq α] : ∀ p s : List α, isPre p s = true ↔ p <+: s := by
  intro p
  induction p with
  | nil => intro s; simp [isPre]
  | cons a as ih =>
    intro s
    match s with
    | [] =>
      simp only [isPre, Bool.false_eq_true, false_iff]
      intro h
      simpa using h.length_le
    | b :: bs =>
      simp only [isPre, Bool.and_eq_true, decide_eq_true_eq, ih]
      constructor
      · intro ⟨hab, hpre⟩
        subst hab
        obtain ⟨t, ht⟩ := hpre
        exact ⟨t, by simp [← ht]⟩
      · intro ⟨t, ht⟩
        injection ht with h1 h2
        exact ⟨h1, ⟨t, h2⟩⟩

theorem findSub_none [DecidableEq α] (pat : List α) :
    ∀ s : List α, findSub pat s = none → ∀ a b, s ≠ a ++ pat ++ b := by
  intro s
  induction s with
  | nil =>
    intro h a b hab
    unfold findSub at h
    split at h
    · simp at h
    · rename_i hpat
      have := congrArg List.length hab
      simp [List.length_append] at this
      exact hpat (List.length_eq_zero.mp (by omega))
  | cons c cs ih =>
    intro h a b hab
    unfold findSub at h
    split at h
    · exact absurd h (by simp)
    · rename_i hnotpre
      match a with
      | [] =>
        refine hnotpre ?_
        rw [isPre_iff]
        exact ⟨b, by simpa using hab.symm⟩
      | x :: a' =>
        have h2 : findSub pat cs = none := by
          cases hfind : findSub pat cs with
          | none => rfl
          | some j => rw [hfind] at h; simp at h
        injection hab with h1 h3
        exact ih h2 a' b h3

theorem findSub_le [DecidableEq α] (pat : List α) :
    ∀ s : List α, ∀ i, findSub pat s = some i →
      ∀ a b, s = a ++ pat ++ b → i ≤ a.length := by
  intro s
  induction s with
  | nil =>
    intro i h a b hab
    unfold findSub at h
    split at h
    · simp at h
      omega
    · simp at h
  | cons c cs ih =>
    intro i h a b hab
    unfold findSub at h
    split at h
    · simp at h
      omega
    · rename_i hnotpre
      match a with
      | [] =>
        exfalso
        refine hnotpre ?_
        rw [isPre_iff]
        exact ⟨b, by simpa using hab.symm⟩
      | x :: a' =>
        cases hfind : findSub pat cs with
        | none => rw [hfind] at h; simp at h
        | some j =>
          rw [hfind] at h
          simp at h
          injection hab with h1 h3
          have := ih j hfind a' b h3
          simp only [List.length_cons]
          omega

theorem findSub_spec [DecidableEq α] (pat : List α) :
    ∀ s : List α, ∀ i, findSub pat s = some i →
      ∃ a b, s = a ++ pat ++ b ∧ a.length = i := by
  intro s
  induction s with
  | nil =>
    intro i h
    unfold findSub at h
    split at h
    · rename_i hp
      simp at h
      exact ⟨[], [], by simp [hp], by simp [← h]⟩
    · simp at h
  | cons c cs ih =>
    intro i h
    unfold findSub at h
    split at h
    · rename_i hpre
      simp at h
      rw [isPre_iff] at hpre
      obtain ⟨t, ht⟩ := hpre
      exact ⟨[], t, by simp [← ht], by simp [← h]⟩
    · cases hfind : findSub pat cs with
      | none => rw [hfind] at h; simp at h
      | some j =>
        rw [hfind] at h
        simp at h
        obtain ⟨a, b, hab, hlen⟩ := ih j hfind
        exact ⟨c :: a, b, by simp [hab], by simp [hlen, ← h]⟩

theorem occ_across (A B : List α) (ch : α) (p : List α) (hne : p ≠ []) (hch : ch ∉ p) :
    ∀ a r, A ++ ch :: B = a ++ p ++ r →
      (∃ d, A = a ++ p ++ d ∧ r = d ++ ch :: B) ∨
      (∃ a', a = A ++ ch :: a' ∧ B = a' ++ p ++ r) := by
  intro a r h
  have h' : a ++ (p ++ r) = A ++ ch :: B := by simpa using h.symm
  rcases List.append_eq_append_iff.mp h' with ⟨w, hw1, hw2⟩ | ⟨w, hw1, hw2⟩
  · rcases List.append_eq_append_iff.mp hw2 with ⟨u, hu1, hu2⟩ | ⟨u, hu1, hu2⟩
    · refine Or.inl ⟨u, ?_, hu2⟩
      rw [hw1, hu1]
      simp
    · match u with
      | [] =>
        refine Or.inl ⟨[], ?_, ?_⟩
        · rw [hw1, hu1]
          simp
        · simpa using hu2.symm
      | u0 :: u' =>
        exfalso
        have hu0 : u0 = ch := by
          have := hu2
          simp only [List.cons_append] at this
          injection this with h1 _
          exact h1.symm
        refine hch ?_
        rw [hu1, hu0]
        simp
  · match w with
    | [] =>
      exfalso
      match p, hne with
      | p0 :: p', _ =>
        have : ch :: B = p0 :: (p' ++ r) := by simpa using hw2
        injection this with h1 _
        refine hch ?_
        rw [← h1]
        simp
    | w0 :: w' =>
      have hw0 : w0 = ch := by
        have := hw2
        simp only [List.cons_append] at this
        injection this with h1 _
        exact h1.symm
      refine Or.inr ⟨w', ?_, ?_⟩
      · rw [hw1, hw0]
      · have := hw2
        simp only [List.cons_append] at this
        injection this with _ h2
        simpa using h2

theorem filterEnvAux_noBlock :
    ∀ (fuel : Nat) (s : List Char), s.length < fuel →
      ¬ ContainsBlock (filterEnvAux fuel s) := by
  intro fuel
  induction fuel with
  | zero => intro s h; omega
  | succ fuel ih =>
    intro s hlen hblock
    unfold filterEnvAux at hblock
    revert hblock
    split
    · rename_i hnone
      intro hblock
      obtain ⟨a, b, c, habc⟩ := hblock
      exact findSub_none openTag s hnone a (b ++ closeTag ++ c) (by simpa using habc)
    · rename_i i hopen
      split
      · rename_i hclose
        intro hblock
        obtain ⟨a, b, c, habc⟩ := hblock
        have hia : i ≤ a.length :=
          findSub_le openTag s i hopen a (b ++ closeTag ++ c) (by simpa using habc)
        have hdrop : s.drop (i + openTag.length) =
            (a ++ openTag ++ b).drop (i + openTag.length) ++ closeTag ++ c := by
          have hs : s = (a ++ openTag ++ b) ++ (closeTag ++ c) := by simpa using habc
          rw [hs, List.drop_append_of_le_length (by simp; omega)]
          simp
        exact findSub_none closeTag _ hclose _ c hdrop
      · rename_i d hclose
        intro hblock
        obtain ⟨a, b, c, habc⟩ := hblock
        obtain ⟨a0, b0, hs0, hlen0⟩ := findSub_spec openTag s i hopen
        have hslen : openTag.length ≤ s.length := by
          rw [hs0]
          simp
          omega
        have hrest : ((s.drop (i + openTag.length + d + closeTag.length)).dropWhile
            isPySpace).length < fuel := by
          have h1 : ((s.drop (i + openTag.length + d + closeTag.length)).dropWhile
              isPySpace).length ≤ (s.drop (i + openTag.length + d + closeTag.length)).length :=
            (List.dropWhile_suffix isPySpace).sublist.length_le
          have h2 : (s.drop (i + openTag.length + d + closeTag.length)).length =
              s.length - (i + openTag.length + d + closeTag.length) := by
            simp
          have hopenlen : openTag.length = 21 := by decide
          have hcloselen : closeTag.length = 22 := by decide
          omega
        have hIH := ih _ hrest
        rcases occ_across (s.take i) (filterEnvAux fuel
            ((s.drop (i + openTag.length + d + closeTag.length)).dropWhile isPySpace))
            '\n' openTag (by decide) (by decide) a (b ++ closeTag ++ c)
            (by simpa using habc) with
          ⟨e, he1, _⟩ | ⟨a', _, ha2⟩
        · have hsa : s = a ++ openTag ++ (e ++ s.drop i) := by
            conv_lhs => rw [← List.take_append_drop i s]
            rw [he1]
            simp
          have hle : i ≤ a.length := findSub_le openTag s i hopen a (e ++ s.drop i) hsa
          have hlen1 : (s.take i).length = a.length + openTag.length + e.length := by
            rw [he1]
            simp
            omega
          have hlen2 : (s.take i).length ≤ i := by
            rw [List.length_take]
            exact Nat.min_le_left _ _
          have hopenlen : openTag.length = 21 := by decide
          omega
        · exact hIH ⟨a', b, c, by simpa using ha2⟩

/-- C9: for every stream message the Orchestrator forwards, the forwarded
content is the content with every `<environment_details>…</environment_details>`
block stripped by the filter — and the filtered output indeed contains no
complete block — except when the role is `"tool_json_args"`, in which case
the content passes through verbatim, unfiltered. -/
theorem claim9_forwarded_content (role content out : List Char)
    (h : stream_forward role content = some out) :
    (role = "tool_json_args".toList → out = content) ∧
    (role ≠ "tool_json_args".toList →
      out = filter_environment_details content ∧ ¬ ContainsBlock out) := by
  unfold stream_forward at h
  dsimp only at h
  by_cases hargs : role = "tool_json_args".toList
  · refine ⟨fun _ => ?_, fun hne => absurd hargs hne⟩
    rw [if_neg (show ¬role ≠ "tool_json_args".toList from by simp [hargs])] at h
    split at h
    · injection h with h'
      exact h'.symm
    · exact absurd h (by simp)
  · refine ⟨fun heq => absurd heq hargs, fun _ => ?_⟩
    rw [if_pos (show role ≠ "tool_json_args".toList from hargs)] at h
    split at h
    · injection h with h'
      subst h'
      exact ⟨rfl, filterEnvAux_noBlock (content.length + 1) content (by omega)⟩
    · exact absurd h (by simp)

/-- C9, witness: a concrete `llm`-role message whose content embeds one
environment-details block is forwarded with the block replaced by a
newline, and an args-role chunk passes verbatim. -/
theorem claim9_witness :
    ("llm".toList = "tool_json_args".toList →
      "hi\nz".toList = "hi<environment_details>q</environment_details>z".toList) ∧
    ("llm".toList ≠ "tool_json_args".toList →
      "hi\nz".toList =
        filter_environment_details "hi<environment_details>q</environment_details>z".toList ∧
      ¬ ContainsBlock "hi\nz".toList) :=
  claim9_forwarded_content "llm".toList
    "hi<environment_details>q</environment_details>z".toList "hi\nz".toList (by decide)

/-! ## Claim C4 — stream marker discipline -/

theorem prefix_append_cases :
    ∀ (a : List α) (p b : List α), p <+: a ++ b →
      p <+: a ∨ ∃ q, p = a ++ q ∧ q <+: b := by
  intro a
  induction a with
  | nil =>
    intro p b h
    exact Or.inr ⟨p, by simp, by simpa using h⟩
  | cons x xs ih =>
    intro p b h
    match p with
    | [] => exact Or.inl List.nil_prefix
    | y :: ys =>
      obtain ⟨t, ht⟩ := h
      have := ht
      simp only [List.cons_append] at this
      injection this with h1 h2
      subst h1
      rcases ih ys b ⟨t, h2⟩ with h' | ⟨q, hq1, hq2⟩
      · obtain ⟨t', ht'⟩ := h'
        exact Or.inl ⟨t', by simp [ht']⟩
      · exact Or.inr ⟨q, by simp [hq1], hq2⟩

theorem prefix_single {m : α} {q : List α} (h : q <+: [m]) : q = [] ∨ q = [m] := by
  match q with
  | [] => exact Or.inl rfl
  | y :: ys =>
    obtain ⟨t, ht⟩ := h
    simp only [List.cons_append, List.cons.injEq] at ht
    obtain ⟨h1, h2⟩ := ht
    subst h1
    have : ys = [] ∧ t = [] := by
      constructor
      · cases ys with
        | nil => rfl
        | cons z zs => simp at h2
      · cases ys with
        | nil => simpa using h2
        | cons z zs => simp at h2
    exact Or.inr (by simp [this.1])

theorem prefix_pair {m1 m2 : α} {q : List α} (h : q <+: [m1, m2]) :
    q = [] ∨ q = [m1] ∨ q = [m1, m2] := by
  match q with
  | [] => exact Or.inl rfl
  | y :: ys =>
    obtain ⟨t, ht⟩ := h
    simp only [List.cons_append, List.cons.injEq] at ht
    obtain ⟨h1, h2⟩ := ht
    subst h1
    rcases prefix_single ⟨t, h2⟩ with h' | h'
    · exact Or.inr (Or.inl (by simp [h']))
    · exact Or.inr (Or.inr (by simp [h']))

theorem PrefixPrec_append {ms1 ms2 : List Msg} (h1 : PrefixPrec ms1)
    (h2 : PrefixPrec ms2) : PrefixPrec (ms1 ++ ms2) := by
  intro p hp x hargs
  rcases prefix_append_cases ms1 p ms2 hp with hp' | ⟨q, hq1, hq2⟩
  · exact h1 p hp' x hargs
  · subst hq1
    obtain ⟨m, hm, hrole, hid⟩ := hargs
    rcases List.mem_append.mp hm with hm' | hm'
    · obtain ⟨m', hm'', hr', hi'⟩ := h1 ms1 List.prefix_rfl x ⟨m, hm', hrole, hid⟩
      exact ⟨m', List.mem_append.mpr (Or.inl hm''), hr', hi'⟩
    · obtain ⟨m', hm'', hr', hi'⟩ := h2 q hq2 x ⟨m, hm', hrole, hid⟩
      exact ⟨m', List.mem_append.mpr (Or.inr hm''), hr', hi'⟩

theorem PrefixPrec_nil : PrefixPrec [] := by
  intro p hp x hargs
  have : p = [] := List.prefix_nil.mp hp
  subst this
  simpa using hargs

theorem PrefixPrec_snoc_args {ms : List Msg} {x a : List Char}
    (h : PrefixPrec ms) (hstart : ∃ m ∈ ms, m.role = "tool_json".toList ∧ m.toolId = x) :
    PrefixPrec (ms ++ [⟨"tool_json_args".toList, x, a, none⟩]) := by
  intro p hp y hargs
  rcases prefix_append_cases ms p _ hp with hp' | ⟨q, hq1, hq2⟩
  · exact h p hp' y hargs
  · subst hq1
    obtain ⟨m, hm, hrole, hid⟩ := hargs
    rcases List.mem_append.mp hm with hm' | hm'
    · obtain ⟨m', hm'', hr', hi'⟩ := h ms List.prefix_rfl y ⟨m, hm', hrole, hid⟩
      exact ⟨m', List.mem_append.mpr (Or.inl hm''), hr', hi'⟩
    · rcases prefix_single hq2 with h' | h'
      · subst h'
        simp at hm'
      · subst h'
        simp only [List.mem_singleton] at hm'
        subst hm'
        obtain ⟨m', hm'', hr', hi'⟩ := hstart
        simp only at hid
        exact ⟨m', List.mem_append.mpr (Or.inl hm''), hr', by rw [hi', hid]⟩

theorem PrefixPrec_snoc_start {ms : List Msg} {x : List Char} {n : Option (List Char)}
    (h : PrefixPrec ms) :
    PrefixPrec (ms ++ [⟨"tool_json".toList, x, [], n⟩]) := by
  intro p hp y hargs
  rcases prefix_append_cases ms p _ hp with hp' | ⟨q, hq1, hq2⟩
  · exact h p hp' y hargs
  · subst hq1
    obtain ⟨m, hm, hrole, hid⟩ := hargs
    rcases List.mem_append.mp hm with hm' | hm'
    · obtain ⟨m', hm'', hr', hi'⟩ := h ms List.prefix_rfl y ⟨m, hm', hrole, hid⟩
      exact ⟨m', List.mem_append.mpr (Or.inl hm''), hr', hi'⟩
    · rcases prefix_single hq2 with h' | h'
      · subst h'
        simp at hm'
      · subst h'
        simp only [List.mem_singleton] at hm'
        subst hm'
        simp at hrole

theorem PrefixPrec_snoc_start_args {ms : List Msg} {x a : List Char}
    {n : Option (List Char)} (h : PrefixPrec ms) :
    PrefixPrec (ms ++ [⟨"tool_json".toList, x, [], n⟩,
      ⟨"tool_json_args".toList, x, a, none⟩]) := by
  intro p hp y hargs
  rcases prefix_append_cases ms p _ hp with hp' | ⟨q, hq1, hq2⟩
  · exact h p hp' y hargs
  · subst hq1
    obtain ⟨m, hm, hrole, hid⟩ := hargs
    rcases List.mem_append.mp hm with hm' | hm'
    · obtain ⟨m', hm'', hr', hi'⟩ := h ms List.prefix_rfl y ⟨m, hm', hrole, hid⟩
      exact ⟨m', List.mem_append.mpr (Or.inl hm''), hr', hi'⟩
    · rcases prefix_pair hq2 with h' | h' | h'
      · subst h'
        simp at hm'
      · subst h'
        simp only [List.mem_singleton] at hm'
        subst hm'
        simp at hrole
      · subst h'
        simp only [List.mem_cons, List.mem_singleton] at hm'
        rcases hm' with hm' | hm' | hm'
        · subst hm'
          simp at hrole
        · subst hm'
          simp only at hid
          refine ⟨⟨"tool_json".toList, x, [], n⟩, ?_, rfl, by simp [hid]⟩
          exact List.mem_append.mpr (Or.inr (by simp))
        · simp at hm'

theorem lookupKey_append_single [DecidableEq α] (k i : α) (v : β) :
    ∀ l : List (α × β),
      (lookupKey k (l ++ [(i, v)])).isSome ↔ (lookupKey k l).isSome ∨ k = i := by
  intro l
  induction l with
  | nil =>
    simp only [List.nil_append, lookupKey]
    by_cases hki : i = k
    · subst hki
      simp [lookupKey]
    · rw [if_neg hki]
      simp [lookupKey]
      exact fun h => hki h.symm
  | cons p t ih =>
    obtain ⟨a, b⟩ := p
    by_cases hak : a = k
    · subst hak
      simp [lookupKey]
    · simp only [List.cons_append, lookupKey, if_neg hak]
      exact ih

theorem lookupKey_setKey_isSome [DecidableEq α] (k i : α) (v : β) (l : List (α × β)) :
    (lookupKey k (setKey i v l)).isSome ↔ k = i ∨ (lookupKey k l).isSome := by
  rw [lookupKey_setKey]
  by_cases hki : k = i
  · simp [hki]
  · simp [hki]

theorem mem_eraseKey [DecidableEq α] (k : α) (p : α × β) :
    ∀ l : List (α × β), p ∈ eraseKey k l → p ∈ l := by
  intro l
  induction l with
  | nil => intro h; simpa [eraseKey] using h
  | cons q t ih =>
    obtain ⟨a, b⟩ := q
    intro h
    unfold eraseKey at h
    split at h
    · exact List.mem_cons.mpr (Or.inr (ih h))
    · rcases List.mem_cons.mp h with h' | h'
      · exact List.mem_cons.mpr (Or.inl h')
      · exact List.mem_cons.mpr (Or.inr (ih h'))

theorem mem_setKey [DecidableEq α] (k : α) (v : β) (p : α × β) (l : List (α × β))
    (h : p ∈ setKey k v l) : p = (k, v) ∨ p ∈ l := by
  unfold setKey at h
  rcases List.mem_cons.mp h with h' | h'
  · exact Or.inl h'
  · exact Or.inr (mem_eraseKey k p l h')

theorem lookupKey_mem [DecidableEq α] (k : α) (v : β) :
    ∀ l : List (α × β), lookupKey k l = some v → (k, v) ∈ l := by
  intro l
  induction l with
  | nil => intro h; simp [lookupKey] at h
  | cons q t ih =>
    obtain ⟨a, b⟩ := q
    intro h
    unfold lookupKey at h
    split at h
    · rename_i hak
      injection h with h'
      subst hak h'
      simp
    · exact List.mem_cons.mpr (Or.inr (ih h))

theorem toolJsonIds_append (ms1 ms2 : List Msg) :
    toolJsonIds (ms1 ++ ms2) = toolJsonIds ms1 ++ toolJsonIds ms2 :=
  List.filterMap_append _ _ _

theorem processChunk_coupled (fs : Frags) (ms : List Msg) (idxs : List Nat)
    (inits : List (Nat × List Char)) (ch : ToolChunk)
    (h1 : ∀ i, (lookupKey i fs).isSome ↔ i ∈ idxs)
    (h2 : toolJsonIds ms = inits.map Prod.snd)
    (h3 : ∀ p ∈ fs, ∃ m ∈ ms, m.role = "tool_json".toList ∧ m.toolId = p.2.fid)
    (h4 : PrefixPrec ms)
    (h5 : ∀ m ∈ ms, m.role ≠ "tool_json_end".toList) :
    (∀ i, (lookupKey i (processChunk (fs, ms) ch).1).isSome ↔
      i ∈ (initStep (idxs, inits) ch).1) ∧
    toolJsonIds (processChunk (fs, ms) ch).2 =
      (initStep (idxs, inits) ch).2.map Prod.snd ∧
    (∀ p ∈ (processChunk (fs, ms) ch).1,
      ∃ m ∈ (processChunk (fs, ms) ch).2,
        m.role = "tool_json".toList ∧ m.toolId = p.2.fid) ∧
    PrefixPrec (processChunk (fs, ms) ch).2 ∧
    (∀ m ∈ (processChunk (fs, ms) ch).2, m.role ≠ "tool_json_end".toList) := by
  obtain ⟨indexOpt, idOpt, nmOpt, argsOpt⟩ := ch
  unfold processChunk initStep
  dsimp only
  match indexOpt with
  | none => exact ⟨h1, h2, h3, h4, h5⟩
  | some index =>
    dsimp only
    have hargsNoJson : ∀ (x a : List Char),
        toolJsonIds [⟨"tool_json_args".toList, x, a, none⟩] = [] := by
      intro x a
      simp [toolJsonIds]
    cases hlook : lookupKey index fs with
    | some f =>
      dsimp only
      have hidx : index ∈ idxs := (h1 index).mp (by simp [hlook])
      rw [if_pos hidx]
      have hf : (index, f) ∈ fs := lookupKey_mem index f fs hlook
      have hstart := h3 (index, f) hf
      match argsOpt with
      | none => exact ⟨h1, h2, h3, h4, h5⟩
      | some a =>
        dsimp only
        by_cases ha : a = []
        · rw [if_neg (by simpa using ha)]
          exact ⟨h1, h2, h3, h4, h5⟩
        · rw [if_pos (by simpa using ha)]
          dsimp only
          refine ⟨?_, ?_, ?_, ?_, ?_⟩
          · intro i
            rw [lookupKey_setKey_isSome]
            constructor
            · intro h'
              rcases h' with h' | h'
              · subst h'
                exact hidx
              · exact (h1 i).mp h'
            · intro h'
              exact Or.inr ((h1 i).mpr h')
          · rw [toolJsonIds_append, hargsNoJson, List.append_nil]
            exact h2
          · intro p hp
            rcases mem_setKey _ _ _ _ hp with h' | h'
            · subst h'
              obtain ⟨m, hm, hr, hi⟩ := hstart
              exact ⟨m, List.mem_append.mpr (Or.inl hm), hr, hi⟩
            · obtain ⟨m, hm, hr, hi⟩ := h3 p h'
              exact ⟨m, List.mem_append.mpr (Or.inl hm), hr, hi⟩
          · exact PrefixPrec_snoc_args h4 hstart
          · intro m hm
            rcases List.mem_append.mp hm with h' | h'
            · exact h5 m h'
            · simp only [List.mem_singleton] at h'
              subst h'
              simp
    | none =>
      dsimp only
      have hidx : index ∉ idxs := fun hmem => by
        have := (h1 index).mpr hmem
        rw [hlook] at this
        simp at this
      rw [if_neg hidx]
      match idOpt, nmOpt with
      | none, none => exact ⟨h1, h2, h3, h4, h5⟩
      | none, some nm => exact ⟨h1, h2, h3, h4, h5⟩
      | some tid, none => exact ⟨h1, h2, h3, h4, h5⟩
      | some tid, some nm =>
        dsimp only
        by_cases htruthy : tid ≠ [] ∧ nm ≠ []
        · rw [if_pos htruthy, if_pos htruthy]
          dsimp only
          have hkeyStarted : ∀ i,
              (lookupKey i (fs ++ [(index, (⟨tid, nm, []⟩ : Frag))])).isSome ↔
                i ∈ idxs ++ [index] := by
            intro i
            rw [lookupKey_append_single]
            simp only [List.mem_append, List.mem_singleton]
            rw [h1 i]
          have hjsonIds : toolJsonIds (ms ++ [⟨"tool_json".toList, tid, [], some nm⟩]) =
              (inits ++ [(index, tid)]).map Prod.snd := by
            rw [toolJsonIds_append, h2, List.map_append]
            simp [toolJsonIds]
          have hmemStarted : ∀ p ∈ fs ++ [(index, (⟨tid, nm, []⟩ : Frag))],
              ∃ m ∈ ms ++ [⟨"tool_json".toList, tid, [], some nm⟩],
                m.role = "tool_json".toList ∧ m.toolId = p.2.fid := by
            intro p hp
            rcases List.mem_append.mp hp with h' | h'
            · obtain ⟨m, hm, hr, hi⟩ := h3 p h'
              exact ⟨m, List.mem_append.mpr (Or.inl hm), hr, hi⟩
            · simp only [List.mem_singleton] at h'
              subst h'
              exact ⟨⟨"tool_json".toList, tid, [], some nm⟩,
                List.mem_append.mpr (Or.inr (by simp)), rfl, rfl⟩
          have hnoEndStarted : ∀ m ∈ ms ++ [⟨"tool_json".toList, tid, [], some nm⟩],
              m.role ≠ "tool_json_end".toList := by
            intro m hm
            rcases List.mem_append.mp hm with h' | h'
            · exact h5 m h'
            · simp only [List.mem_singleton] at h'
              subst h'
              simp
          match argsOpt with
          | none => exact ⟨hkeyStarted, hjsonIds, hmemStarted, PrefixPrec_snoc_start h4,
              hnoEndStarted⟩
          | some a =>
            dsimp only
            by_cases ha : a = []
            · rw [if_neg (by simpa using ha)]
              exact ⟨hkeyStarted, hjsonIds, hmemStarted, PrefixPrec_snoc_start h4,
                hnoEndStarted⟩
            · rw [if_pos (by simpa using ha)]
              dsimp only
              refine ⟨?_, ?_, ?_, ?_, ?_⟩
              · intro i
                rw [lookupKey_setKey_isSome, hkeyStarted i]
                simp only [List.mem_append, List.mem_singleton]
                constructor
                · intro h'
                  rcases h' with h' | h' | h'
                  · exact Or.inr h'
                  · exact Or.inl h'
                  · exact Or.inr h'
                · intro h'
                  rcases h' with h' | h'
                  · exact Or.inr (Or.inl h')
                  · exact Or.inl h'
              · rw [toolJsonIds_append, hjsonIds, hargsNoJson, List.append_nil]
              · intro p hp
                rcases mem_setKey _ _ _ _ hp with h' | h'
                · subst h'
                  exact ⟨⟨"tool_json".toList, tid, [], some nm⟩,
                    by simp, rfl, rfl⟩
                · obtain ⟨m, hm, hr, hi⟩ := hmemStarted p h'
                  rcases List.mem_append.mp hm with h'' | h''
                  · exact ⟨m, by simp [h''], hr, hi⟩
                  · simp only [List.mem_singleton] at h''
                    subst h''
                    exact ⟨_, by simp, hr, hi⟩
              · rw [List.append_assoc]
                exact PrefixPrec_snoc_start_args h4
              · intro m hm
                rw [List.append_assoc] at hm
                simp only [List.mem_append, List.mem_cons, List.mem_singleton,
                  List.cons_append, List.nil_append, List.not_mem_nil, or_false] at hm
                rcases hm with h' | h' | h'
                · exact h5 m h'
                · subst h'
                  simp
                · subst h'
                  simp
        · rw [if_neg htruthy, if_neg htruthy]
          exact ⟨h1, h2, h3, h4, h5⟩

theorem foldl_coupled :
    ∀ (chs : List ToolChunk) (fs : Frags) (ms : List Msg) (idxs : List Nat)
      (inits : List (Nat × List Char)),
      (∀ i, (lookupKey i fs).isSome ↔ i ∈ idxs) →
      toolJsonIds ms = inits.map Prod.snd →
      (∀ p ∈ fs, ∃ m ∈ ms, m.role = "tool_json".toList ∧ m.toolId = p.2.fid) →
      PrefixPrec ms →
      (∀ m ∈ ms, m.role ≠ "tool_json_end".toList) →
      (∀ i, (lookupKey i (chs.foldl processChunk (fs, ms)).1).isSome ↔
        i ∈ (chs.foldl initStep (idxs, inits)).1) ∧
      toolJsonIds (chs.foldl processChunk (fs, ms)).2 =
        (chs.foldl initStep (idxs, inits)).2.map Prod.snd ∧
      (∀ p ∈ (chs.foldl processChunk (fs, ms)).1,
        ∃ m ∈ (chs.foldl processChunk (fs, ms)).2,
          m.role = "tool_json".toList ∧ m.toolId = p.2.fid) ∧
      PrefixPrec (chs.foldl processChunk (fs, ms)).2 ∧
      (∀ m ∈ (chs.foldl processChunk (fs, ms)).2, m.role ≠ "tool_json_end".toList) := by
  intro chs
  induction chs with
  | nil => intro fs ms idxs inits h1 h2 h3 h4 h5; exact ⟨h1, h2, h3, h4, h5⟩
  | cons ch rest ih =>
    intro fs ms idxs inits h1 h2 h3 h4 h5
    obtain ⟨g1, g2, g3, g4, g5⟩ := processChunk_coupled fs ms idxs inits ch h1 h2 h3 h4 h5
    have hps : (processChunk (fs, ms) ch) = ((processChunk (fs, ms) ch).1,
        (processChunk (fs, ms) ch).2) := rfl
    have his : (initStep (idxs, inits) ch) = ((initStep (idxs, inits) ch).1,
        (initStep (idxs, inits) ch).2) := rfl
    show (∀ i, (lookupKey i ((rest.foldl processChunk (processChunk (fs, ms) ch))).1).isSome ↔
        i ∈ ((rest.foldl initStep (initStep (idxs, inits) ch))).1) ∧ _
    rw [hps, his]
    exact ih _ _ _ _ g1 g2 g3 g4 g5

theorem processStream_props (chs : List ToolChunk) :
    (∀ i, (lookupKey i (processStream chs).1).isSome ↔
      i ∈ (chs.foldl initStep ([], [])).1) ∧
    toolJsonIds (processStream chs).2 = (streamInits chs).map Prod.snd ∧
    (∀ p ∈ (processStream chs).1,
      ∃ m ∈ (processStream chs).2, m.role = "tool_json".toList ∧ m.toolId = p.2.fid) ∧
    PrefixPrec (processStream chs).2 ∧
    (∀ m ∈ (processStream chs).2, m.role ≠ "tool_json_end".toList) := by
  have := foldl_coupled chs [] [] [] []
    (by intro i; simp [lookupKey]) (by simp [toolJsonIds]) (by simp)
    PrefixPrec_nil (by simp)
  exact this

theorem endMarkers_roles (fs : Frags) :
    ∀ m ∈ endMarkers fs, m.role = "tool_json_end".toList ∧
      ∃ p ∈ fs, m.toolId = p.2.fid := by
  intro m hm
  unfold endMarkers at hm
  obtain ⟨index, -, hbind⟩ := List.mem_filterMap.mp hm
  cases hlook : lookupKey index fs with
  | none =>
    rw [hlook] at hbind
    exact absurd hbind (by simp)
  | some f =>
    rw [hlook] at hbind
    simp only [Option.some_bind] at hbind
    split at hbind
    · injection hbind with h'
      subst h'
      exact ⟨rfl, ⟨(index, f), lookupKey_mem index f fs hlook, rfl⟩⟩
    · simp at hbind

theorem toolJsonIds_endMarkers (fs : Frags) : toolJsonIds (endMarkers fs) = [] := by
  refine List.filterMap_eq_nil.mpr ?_
  intro m hm
  have hr := (endMarkers_roles fs m hm).1
  rw [hr]
  simp

theorem runTurns_props (parse : List Char → Option Json)
    (exec : List Char → List Char → Json → List Char) :
    ∀ (fuel : Nat) (streams : List (List ToolChunk)) (prev : Frags),
      List.Sublist (toolJsonIds (runTurns parse exec fuel streams prev).2)
        (allInitIds streams) ∧
      PrefixPrec (runTurns parse exec fuel streams prev).2 ∧
      (∀ m ∈ (runTurns parse exec fuel streams prev).2,
        m.role ≠ "tool_json_end".toList) ∧
      ((runTurns parse exec fuel streams prev).1 = prev ∧
          (runTurns parse exec fuel streams prev).2 = [] ∨
        ∀ p ∈ (runTurns parse exec fuel streams prev).1,
          ∃ m ∈ (runTurns parse exec fuel streams prev).2,
            m.role = "tool_json".toList ∧ m.toolId = p.2.fid) := by
  intro fuel
  induction fuel with
  | zero =>
    intro streams prev
    refine ⟨List.nil_sublist _, PrefixPrec_nil, by simp [runTurns], Or.inl ⟨rfl, rfl⟩⟩
  | succ fuel ih =>
    intro streams prev
    match streams with
    | [] =>
      refine ⟨List.nil_sublist _, PrefixPrec_nil, by simp [runTurns],
        Or.inr (by simp [runTurns])⟩
    | stream :: rest =>
      obtain ⟨p1, p2, p3, p4, p5⟩ := processStream_props stream
      have hall : allInitIds (stream :: rest) =
          (streamInits stream).map Prod.snd ++ allInitIds rest := by
        simp [allInitIds]
      show List.Sublist
        (toolJsonIds (runTurns parse exec (fuel + 1) (stream :: rest) prev).2) _ ∧ _
      unfold runTurns
      rcases hps : processStream stream with ⟨frags, msgs⟩
      rw [hps] at p1 p2 p3 p4 p5
      simp only at p1 p2 p3 p4 p5
      dsimp only
      by_cases hcalls : (extractToolCalls parse frags).isEmpty
      · rw [if_pos hcalls]
        refine ⟨?_, p4, p5, Or.inr p3⟩
        rw [hall, p2]
        exact List.sublist_append_left _ _
      · rw [if_neg hcalls]
        by_cases hexec : execToolCalls exec (extractToolCalls parse frags)
        · rw [if_pos hexec]
          obtain ⟨q1, q2, q3, q4⟩ := ih rest frags
          rcases hrt : runTurns parse exec fuel rest frags with ⟨ff, lm⟩
          rw [hrt] at q1 q2 q3 q4
          simp only at q1 q2 q3 q4
          dsimp only
          refine ⟨?_, PrefixPrec_append p4 q2, ?_, ?_⟩
          · rw [toolJsonIds_append, hall]
            exact List.Sublist.append (by rw [p2]) q1
          · intro m hm
            rcases List.mem_append.mp hm with h' | h'
            · exact p5 m h'
            · exact q3 m h'
          · rcases q4 with ⟨hff, hlm⟩ | hq
            · subst hff
              refine Or.inr ?_
              intro p hp
              obtain ⟨m, hm, hr, hi⟩ := p3 p hp
              exact ⟨m, List.mem_append.mpr (Or.inl hm), hr, hi⟩
            · refine Or.inr ?_
              intro p hp
              obtain ⟨m, hm, hr, hi⟩ := hq p hp
              exact ⟨m, List.mem_append.mpr (Or.inr hm), hr, hi⟩
        · rw [if_neg hexec]
          refine ⟨?_, p4, p5, Or.inr p3⟩
          rw [hall, p2]
          exact List.sublist_append_left _ _

theorem PrefixPrec_of_no_args {ms : List Msg}
    (h : ∀ m ∈ ms, m.role ≠ "tool_json_args".toList) : PrefixPrec ms := by
  intro p hp x hargs
  obtain ⟨m, hm, hrole, -⟩ := hargs
  exact absurd hrole (h m (hp.subset hm))

theorem handle_interaction_eq (parse : List Char → Option Json)
    (exec : List Char → List Char → Json → List Char)
    (streams : List (List ToolChunk)) :
    handle_interaction parse exec streams =
      (runTurns parse exec max_turns streams []).2 ++
        endMarkers (runTurns parse exec max_turns streams []).1 := by
  unfold handle_interaction
  rcases h : runTurns parse exec max_turns streams [] with ⟨ff, ms⟩
  simp

/-- C4, counterexample: a two-turn error-free interaction in which turn 1
starts tool call id `"a"` (whose execution succeeds, so the loop
continues) and turn 2 yields no tool calls.  A `tool_json` message for
`"a"` is emitted, but the end-of-interaction markers cover only the final
turn's fragment dictionary — which turn 2 reset to empty — so no
`tool_json_end` for `"a"` (indeed no end marker at all) is ever emitted,
refuting the claimed exactly-one end marker per id. -/
theorem claim4_counterexample :
    (∃ m ∈ handle_interaction c4_parse c4_exec c4_streams,
      m.role = "tool_json".toList ∧ m.toolId = "a".toList) ∧
    (handle_interaction c4_parse c4_exec c4_streams).filter
        (fun m => decide (m.role = "tool_json_end".toList)) = [] := by
  constructor
  · decide
  · decide

/-- C4, amended: in every error-free interaction, a `tool_json` start
marker for a tool-call id precedes any `tool_json_args` message with that
id in every prefix of the stream output; when the fragment initialisations
across the interaction carry pairwise distinct ids, each id's `tool_json`
is emitted at most once (and every args or end message's id was started by
a `tool_json`); but the `tool_json_end` markers are emitted only at the
end of the interaction and only for the fragments of the final processed
turn's stream, in index order — ids from earlier turns receive no end
marker, and an interaction ending with a tool-free turn emits none. -/
theorem claim4_marker_discipline (parse : List Char → Option Json)
    (exec : List Char → List Char → Json → List Char)
    (streams : List (List ToolChunk)) :
    (∀ p, p <+: handle_interaction parse exec streams → ∀ x,
      (∃ m ∈ p, m.role = "tool_json_args".toList ∧ m.toolId = x) →
      ∃ m ∈ p, m.role = "tool_json".toList ∧ m.toolId = x) ∧
    ((allInitIds streams).Nodup →
      (toolJsonIds (handle_interaction parse exec streams)).Nodup) ∧
    (∀ m ∈ handle_interaction parse exec streams,
      m.role = "tool_json_args".toList ∨ m.role = "tool_json_end".toList →
      ∃ m' ∈ handle_interaction parse exec streams,
        m'.role = "tool_json".toList ∧ m'.toolId = m.toolId) ∧
    (handle_interaction parse exec streams).filter
        (fun m => decide (m.role = "tool_json_end".toList)) =
      endMarkers (runTurns parse exec max_turns streams []).1 := by
  obtain ⟨q1, q2, q3, q4⟩ := runTurns_props parse exec max_turns streams []
  have htrace := handle_interaction_eq parse exec streams
  have hnoargs : ∀ m ∈ endMarkers (runTurns parse exec max_turns streams []).1,
      m.role ≠ "tool_json_args".toList := by
    intro m hm
    rw [(endMarkers_roles _ m hm).1]
    decide
  refine ⟨?_, ?_, ?_, ?_⟩
  · rw [htrace]
    exact PrefixPrec_append q2 (PrefixPrec_of_no_args hnoargs)
  · intro hnd
    rw [htrace, toolJsonIds_append, toolJsonIds_endMarkers, List.append_nil]
    exact hnd.sublist q1
  · intro m hm hrole
    rw [htrace] at hm
    rcases List.mem_append.mp hm with hm' | hm'
    · rcases hrole with hr | hr
      · obtain ⟨m', hm'', hr', hi'⟩ :=
          q2 _ List.prefix_rfl m.toolId ⟨m, hm', hr, rfl⟩
        exact ⟨m', by rw [htrace]; exact List.mem_append.mpr (Or.inl hm''), hr', hi'⟩
      · exact absurd hr (q3 m hm')
    · obtain ⟨-, p, hp, hid⟩ := endMarkers_roles _ m hm'
      rcases q4 with ⟨hff, -⟩ | hq
      · rw [hff] at hp
        simp at hp
      · obtain ⟨m', hm'', hr', hi'⟩ := hq p hp
        refine ⟨m', by rw [htrace]; exact List.mem_append.mpr (Or.inl hm''), hr', ?_⟩
        rw [hi', hid]
  · rw [htrace, List.filter_append]
    have h1 : (runTurns parse exec max_turns streams []).2.filter
        (fun m => decide (m.role = "tool_json_end".toList)) = [] := by
      rw [List.filter_eq_nil]
      intro m hm
      simpa using q3 m hm
    have h2 : (endMarkers (runTurns parse exec max_turns streams []).1).filter
        (fun m => decide (m.role = "tool_json_end".toList)) =
          endMarkers (runTurns parse exec max_turns streams []).1 := by
      rw [List.filter_eq_self]
      intro m hm
      simpa using (endMarkers_roles _ m hm).1
    rw [h1, h2, List.nil_append]

end Emigo
